import Mathlib

/-!
Verification development for the hamming repository: a multi-index Hamming
distance search structure (hamming.go) and a TLSH-style streaming digest
(tlsh source file).  The Go code is shallowly embedded: 64-bit machine words
are modelled as Nat with explicit reduction mod 2^64 where the Go code can
wrap, Go strings are modelled as lists of byte values (Nat < 256), Go maps
are modelled as association lists (all reachable states keep keys unique, so
first-match lookup coincides with Go map lookup), and Go slices are modelled
as lists.  Fallible operations return Except.
-/

namespace Hamming

/-- Fuel-driven bit count: the fuel only has to dominate the value, so the
kernel can evaluate it on concrete words. -/
def popCountGo (fuel n : Nat) : Nat :=
  match fuel with
  | 0 => 0
  | f + 1 => if n = 0 then 0 else popCountGo f (n / 2) + n % 2

/-- Number of set bits of a natural number; used to model
math/bits.OnesCount64 on 64-bit words. -/
def popCount (n : Nat) : Nat := popCountGo n n

theorem popCountGo_zero (f : Nat) : popCountGo f 0 = 0 := by
  cases f <;> rfl

theorem popCountGo_congr (f : Nat) :
    ∀ (f' n : Nat), n ≤ f → n ≤ f' → popCountGo f n = popCountGo f' n := by
  induction f with
  | zero =>
      intro f' n h _
      have : n = 0 := by omega
      subst this
      rw [popCountGo_zero, popCountGo_zero]
  | succ g ih =>
      intro f' n h h'
      by_cases hn : n = 0
      · subst hn
        rw [popCountGo_zero, popCountGo_zero]
      · cases f' with
        | zero => omega
        | succ g' =>
            rw [popCountGo, popCountGo]
            simp only [hn, if_false]
            have hd : n / 2 < n := Nat.div_lt_self (by omega) (by omega)
            rw [ih g' (n / 2) (by omega) (by omega)]

/-- Value of popCount at zero. -/
theorem popCount_zero : popCount 0 = 0 := rfl

/-- Unfolding equation of popCount. -/
theorem popCount_eq (n : Nat) :
    popCount n = if n = 0 then 0 else popCount (n / 2) + n % 2 := by
  by_cases hn : n = 0
  · subst hn
    rfl
  · rw [popCount, popCount]
    cases n with
    | zero => omega
    | succ m =>
        rw [popCountGo]
        simp only [hn, if_false]
        have hd : (m + 1) / 2 < m + 1 := Nat.div_lt_self (by omega) (by omega)
        rw [popCountGo_congr m ((m + 1) / 2) ((m + 1) / 2) (by omega) (by omega)]

/-- FuzzyHash from hamming.go: a vector of 64-bit limbs, limb 0 most
significant.  Each limb is a Nat that is < 2^64 in every reachable state. -/
abbrev FuzzyHash := List Nat

/-- distanceUint64s from hamming.go: sum over limb pairs of the popcount of
the XOR.  The Go loop runs over the indices of b0 and indexes b1 with them;
for the equal-length vectors used by all callers this is zipWith. -/
def distanceUint64s (b0 b1 : List Nat) : Nat :=
  (List.zipWith (fun x y => popCount (x ^^^ y)) b0 b1).sum

/-- FuzzyHash.and from hamming.go: returns the last (least significant) limb
masked.  The Go code indexes fh[len-1]; on the empty vector it would panic,
the model returns 0 and every theorem about it keeps vectors nonempty. -/
def andMask (fh : FuzzyHash) (mask : Nat) : Nat :=
  (fh.getLast?.getD 0) &&& mask

/-- Body of FuzzyHash.rsh: prev is the original limb one position closer to
the most significant end (0 for the head limb).  s1 is the masked shift
s &&& 63, t is the complementary shift (64 - s1) &&& 63.  The Go loop walks
from the least significant end upward, always reading the not yet
overwritten fh[i-1], so the functional version pairs each limb with its
original predecessor. -/
def rshAux (s1 t : Nat) : Nat → List Nat → List Nat
  | _, [] => []
  | prev, cur :: rest =>
      ((cur >>> s1) ||| ((prev <<< t) % 2 ^ 64)) :: rshAux s1 t cur rest

/-- FuzzyHash.rsh from hamming.go: in-place right shift of the whole vector,
modelled functionally.  s = 0 returns unchanged; the Go code masks the shift
counts with 63 before use. -/
def rsh (fh : FuzzyHash) (s : Nat) : FuzzyHash :=
  if s = 0 then fh
  else if fh.length = 0 then fh
  else rshAux (s % 64) ((64 - s % 64) % 64) 0 fh

/-- Hex digit rendering of fmt %016x: value below 16 to its lowercase ASCII
byte. -/
def hexDigitByte (d : Nat) : Nat :=
  if d < 10 then 48 + d else 87 + d

/-- Rendering of one limb by fmt %016x in FuzzyHash.ToString: exactly 16
lowercase hex digit bytes, most significant nibble first. -/
def limbHex (v : Nat) : List Nat :=
  (List.range 16).map (fun i => hexDigitByte (v / 16 ^ (15 - i) % 16))

/-- FuzzyHash.ToString from hamming.go: concatenation of the %016x rendering
of every limb, most significant limb first.  Strings are byte lists. -/
def ToString (fh : FuzzyHash) : List Nat :=
  (fh.map limbHex).flatten

set_option maxHeartbeats 2000000 in
/-- The asciiCodes lookup table from hamming.go, verbatim: 261 entries, -1
for a non-hex byte, otherwise the hex digit value. -/
def asciiCodes : List Int :=
  [-1, -1, -1, -1, -1, -1, -1, -1, -1, -1, -1, -1,
   -1, -1, -1, -1, -1, -1, -1, -1, -1, -1, -1, -1,
   -1, -1, -1, -1, -1, -1, -1, -1, -1, -1, -1, -1,
   -1, -1, -1, -1, -1, -1, -1, -1, -1, -1, -1, -1,
   0, 1, 2, 3, 4, 5, 6, 7, 8, 9, -1, -1,
   -1, -1, -1, -1, -1, 10, 11, 12, 13, 14, 15, -1,
   -1, -1, -1, -1, -1, -1, -1, -1, -1, -1, -1, -1,
   -1, -1, -1, -1, -1, -1, -1, -1, -1, -1, -1, -1,
   -1, 10, 11, 12, 13, 14, 15, -1, -1, -1, -1, -1,
   -1, -1, -1, -1, -1, -1, -1, -1, -1, -1, -1, -1,
   -1, -1, -1, -1, -1, -1, -1, -1, -1, -1, -1, -1,
   -1, -1, -1, -1, -1, -1, -1, -1, -1, -1, -1, -1,
   -1, -1, -1, -1, -1, -1, -1, -1, -1, -1, -1, -1,
   -1, -1, -1, -1, -1, -1, -1, -1, -1, -1, -1, -1,
   -1, -1, -1, -1, -1, -1, -1, -1, -1, -1, -1, -1,
   -1, -1, -1, -1, -1, -1, -1, -1, -1, -1, -1, -1,
   -1, -1, -1, -1, -1, -1, -1, -1, -1, -1, -1, -1,
   -1, -1, -1, -1, -1, -1, -1, -1, -1, -1, -1, -1,
   -1, -1, -1, -1, -1, -1, -1, -1, -1, -1, -1, -1,
   -1, -1, -1, -1, -1, -1, -1, -1, -1, -1, -1, -1,
   -1, -1, -1, -1, -1, -1, -1, -1, -1, -1, -1, -1,
   -1, -1, -1, -1, -1, -1, -1, -1, -1]

/-- Loop body of HashStringToFuzzyHash: consumes two byte characters per
step, accumulating a limb in val and a byte count; a completed limb (8
bytes) is appended and the accumulator reset.  Bytes left over at the end of
the input are dropped, exactly as in the Go code.  The single-character case
is unreachable because the caller rejects odd lengths. -/
def parseLoop : List Nat → Nat → Nat → List Nat → Except Unit (List Nat)
  | [], _, _, acc => .ok acc
  | [_], _, _, _ => .error ()
  | c0 :: c1 :: rest, val, bytes, acc =>
      let d0 := asciiCodes.getD c0 (-1)
      if d0 < 0 then .error ()
      else
        let d1 := asciiCodes.getD c1 (-1)
        if d1 < 0 then .error ()
        else
          let val1 := ((val <<< 4) ||| d0.toNat) % 2 ^ 64
          let val2 := ((val1 <<< 4) ||| d1.toNat) % 2 ^ 64
          if bytes + 1 = 8 then parseLoop rest 0 0 (acc ++ [val2])
          else parseLoop rest val2 (bytes + 1) acc

/-- HashStringToFuzzyHash from hamming.go: hex string (byte list) to limb
vector; rejects odd lengths up front, rejects non-hex bytes via asciiCodes,
silently drops a trailing partial limb. -/
def HashStringToFuzzyHash (s : List Nat) : Except Unit (List Nat) :=
  if s.length % 2 ≠ 0 then .error () else parseLoop s 0 0 []

/-- Sibling from hamming.go: the closest stored hash found so far plus its
distance.  The zero value of the Go struct has a nil hash, modelled as the
empty list. -/
structure Sibling where
  s : FuzzyHash
  distance : Nat
  deriving DecidableEq, Repr

/-- Config from hamming.go.  The sizes are used non-negatively throughout,
so they are modelled as Nat. -/
structure Config where
  HashSize : Nat
  MaxDistance : Nat
  UseMultiindex : Bool
  deriving DecidableEq, Repr

/-- An index table from hamming.go: map from 16-bit block value to a sorted
list of hash indices, modelled as an association list with unique keys. -/
abbrev IndexTable := List (Nat × List Nat)

/-- Lookup in an association-list map (Go map read). -/
def tableGet? : IndexTable → Nat → Option (List Nat)
  | [], _ => none
  | (k, v) :: rest, key => if k = key then some v else tableGet? rest key

/-- Insert or overwrite in an association-list map (Go map write). -/
def tableSet : IndexTable → Nat → List Nat → IndexTable
  | [], key, v => [(key, v)]
  | (k, v') :: rest, key, v =>
      if k = key then (key, v) :: rest else (k, v') :: tableSet rest key v

/-- Lookup in the identity map hashesLookup.  The Go key is the raw byte
image of the limb array, which two hashes share exactly when their limb
lists are equal, so the model keys directly on the limb list. -/
def lookupGet? : List (FuzzyHash × Nat) → FuzzyHash → Option Nat
  | [], _ => none
  | (k, v) :: rest, key => if k = key then some v else lookupGet? rest key

/-- Write to the identity map (Go map write). -/
def lookupInsert : List (FuzzyHash × Nat) → FuzzyHash → Nat → List (FuzzyHash × Nat)
  | [], key, v => [(key, v)]
  | (k, v') :: rest, key, v =>
      if k = key then (key, v) :: rest else (k, v') :: lookupInsert rest key v

/-- Deletion from the identity map (Go delete).  Reachable states have
unique keys, so filtering all bindings of the key coincides with Go. -/
def lookupErase (m : List (FuzzyHash × Nat)) (key : FuzzyHash) : List (FuzzyHash × Nat) :=
  m.filter (fun p => p.1 ≠ key)

/-- H from hamming.go: the Hamming index state.  The distance function
pointer selected in New is modelled by dispatching on config.UseMultiindex,
which is exactly how New chooses it. -/
structure H where
  config : Config
  hashes : List FuzzyHash
  multiIndexTables : List (Option IndexTable)
  hashesLookup : List (FuzzyHash × Nat)
  blocks : Nat
  blockSize : Nat
  lastBlockSize : Nat
  deriving DecidableEq, Repr

/-- Construction errors of New, distinguished by the two distinct error
messages in the Go code. -/
inductive NewError where
  | badHashSize
  | tooManyBlocks
  deriving DecidableEq, Repr

/-- New from hamming.go: derives blocks, blockSize and lastBlockSize and
performs exactly two validity checks. -/
def New (config : Config) : Except NewError H :=
  if config.HashSize % 64 ≠ 0 then .error .badHashSize
  else
    let blocks := config.MaxDistance + 1
    if blocks > 255 then .error .tooManyBlocks
    else
      let blockSize := config.HashSize / blocks
      let lastBlockSize :=
        if blocks * blockSize < config.HashSize then
          config.HashSize - (blocks - 1) * blockSize
        else blockSize
      .ok { config := config, hashes := [], multiIndexTables := List.replicate 256 none,
            hashesLookup := [], blocks := blocks, blockSize := blockSize,
            lastBlockSize := lastBlockSize }

/-- Result position of Go sort.Search over a sorted ascending list with
predicate (x ≤ yi): the least index whose element is ≥ x, or the length.
All candidate lists in reachable states are sorted, where binary search
returns exactly this index. -/
def searchGE (l : List Nat) (x : Nat) : Nat :=
  (l.findIdx? (fun y => x ≤ y)).getD l.length

/-- addMultiindex from hamming.go: allocates the block table and the
candidate list (preallocate zero entries, a real slice of zeros in the Go
code) when missing, then inserts hashIndex at its sorted position unless the
position already holds it. -/
def addMultiindex (tables : List (Option IndexTable)) (blockIndex blockValue hashIndex prealloc : Nat) :
    List (Option IndexTable) :=
  let t0 := (tables.getD blockIndex none).getD []
  let t1 := match tableGet? t0 blockValue with
    | some _ => t0
    | none => tableSet t0 blockValue (List.replicate prealloc 0)
  let hashes := (tableGet? t1 blockValue).getD []
  let insertIndex := searchGE hashes hashIndex
  if insertIndex < hashes.length ∧ hashes.getD insertIndex 0 = hashIndex then
    tables.set blockIndex (some t1)
  else
    tables.set blockIndex
      (some (tableSet t1 blockValue (hashes.take insertIndex ++ hashIndex :: hashes.drop insertIndex)))

/-- removeMultiindex from hamming.go, including its inverted found test: the
early return fires when the binary search position holds hashIndex (the
entry is present), and otherwise the element at the search position is
deleted. -/
def removeMultiindex (tables : List (Option IndexTable)) (blockIndex blockValue hashIndex : Nat) :
    List (Option IndexTable) :=
  match tables.getD blockIndex none with
  | none => tables
  | some t0 =>
    match tableGet? t0 blockValue with
    | none => tables
    | some hashes =>
      let removeIndex := searchGE hashes hashIndex
      if hashes.length ≤ removeIndex ∨ hashes.getD removeIndex 0 = hashIndex then tables
      else
        tables.set blockIndex
          (some (tableSet t0 blockValue (hashes.take removeIndex ++ hashes.drop (removeIndex + 1))))

/-- The block mask computed in Add, remove and the multi-index search:
uint64(1) << blockSize - 1 with Go uint64 wrap-around (shift counts of 64 or
more give 0, so the mask wraps to 2^64 - 1). -/
def goBlockMask (blockSize : Nat) : Nat :=
  ((1 <<< blockSize) % 2 ^ 64 + (2 ^ 64 - 1)) % 2 ^ 64

/-- Contains from hamming.go: identity-map membership. -/
def Contains (h : H) (hash : FuzzyHash) : Bool :=
  (lookupGet? h.hashesLookup hash).isSome

/-- Add from hamming.go.  On a fresh hash the vector is appended, the
identity map extended, and with the multi-index strategy the new index is
inserted into every block table, extracting block values with and/rsh on a
defensive copy.  The preallocation divisor 1 << blockSize is the Go int
shift; for blockSize ≥ 64 the Go code divides by zero and panics, so
theorems about multi-index states assume blockSize < 64. -/
def Add (h : H) (hash : FuzzyHash) : H × Bool :=
  if (lookupGet? h.hashesLookup hash).isSome then (h, false)
  else
    let hashIndex := h.hashes.length
    let h1 := { h with hashes := h.hashes ++ [hash],
                       hashesLookup := lookupInsert h.hashesLookup hash hashIndex }
    if h1.config.UseMultiindex = false then (h1, true)
    else
      let blockMask := goBlockMask h1.blockSize
      let prealloc := h1.hashesLookup.length / ((1 <<< h1.blockSize) % 2 ^ 64)
      let step := fun (st : List (Option IndexTable) × FuzzyHash) (b : Nat) =>
        let blockValue := andMask st.2 blockMask
        (addMultiindex st.1 b (blockValue % 2 ^ 16) hashIndex prealloc, rsh st.2 h1.blockSize)
      let tables := ((List.range h1.blocks).foldl step (h1.multiIndexTables, hash)).1
      ({ h1 with multiIndexTables := tables }, true)

/-- Array effect of the Go line copy(h.hashes[hashIndex:], h.hashes[hashIndex+1:])
in remove: every element from hashIndex on is shifted down by one, the length
is unchanged, and the final slot keeps its old (now duplicated) value. -/
def copyShiftRemove (l : List FuzzyHash) (i : Nat) : List FuzzyHash :=
  if l.length = 0 then l
  else l.take i ++ l.drop (i + 1) ++ l.drop (l.length - 1)

/-- The method remove from hamming.go (called by RemoveBulk and exported
tests): deletes the identity-map entry, shifts the hashes array without
truncating it, and runs removeMultiindex over every block. -/
def remove (h : H) (hash : FuzzyHash) : H × Bool :=
  match lookupGet? h.hashesLookup hash with
  | none => (h, false)
  | some hashIndex =>
    let h1 := { h with hashesLookup := lookupErase h.hashesLookup hash,
                       hashes := copyShiftRemove h.hashes hashIndex }
    if h1.config.UseMultiindex = false then (h1, true)
    else
      let blockMask := goBlockMask h1.blockSize
      let step := fun (st : List (Option IndexTable) × FuzzyHash) (b : Nat) =>
        let blockValue := andMask st.2 blockMask
        (removeMultiindex st.1 b (blockValue % 2 ^ 16) hashIndex, rsh st.2 h1.blockSize)
      let tables := ((List.range h1.blocks).foldl step (h1.multiIndexTables, hash)).1
      ({ h1 with multiIndexTables := tables }, true)

/-- AddBulk from hamming.go: ok = h.Add(hash) && ok, so Add is applied to
every element regardless of earlier results. -/
def AddBulk (h : H) (hashes : List FuzzyHash) : H × Bool :=
  hashes.foldl
    (fun st hash =>
      let r := Add st.1 hash
      (r.1, r.2 && st.2))
    (h, true)

/-- RemoveBulk from hamming.go: ok = ok && h.remove(hash); the Go &&
short-circuits, so once ok is false remove is no longer called. -/
def RemoveBulk (h : H) (hashes : List FuzzyHash) : H × Bool :=
  hashes.foldl
    (fun st hash => if st.2 then remove st.1 hash else st)
    (h, true)

/-- Count from hamming.go: length of the hashes array. -/
def Count (h : H) : Nat :=
  h.hashes.length

/-- shortestDistanceBruteForce from hamming.go: linear scan of the hashes
array tracking a strictly improving best distance, starting from
config.HashSize with a nil best hash. -/
def shortestDistanceBruteForce (h : H) (hash : FuzzyHash) : Sibling :=
  h.hashes.foldl
    (fun sibling candidateHash =>
      let hammingDistance := distanceUint64s hash candidateHash
      if hammingDistance < sibling.distance then
        { s := candidateHash, distance := hammingDistance }
      else sibling)
    { s := [], distance := h.config.HashSize }

/-- Inner candidate loop of shortestDistanceMultiindex: per candidate index
the checked counter is bumped; a counter above one means already processed
and is skipped, otherwise the true distance to the stored hash is compared
against the running best. -/
def processCandidates (q : FuzzyHash) (arr : List FuzzyHash) :
    List Nat → List Nat × Sibling → List Nat × Sibling
  | [], st => st
  | j :: rest, (checked, sibling) =>
      let checked1 := checked.set j (checked.getD j 0 + 1)
      if 1 < checked1.getD j 0 then processCandidates q arr rest (checked1, sibling)
      else
        let candidateHash := arr.getD j []
        let hammingDistance := distanceUint64s q candidateHash
        if hammingDistance < sibling.distance then
          processCandidates q arr rest (checked1, { s := candidateHash, distance := hammingDistance })
        else processCandidates q arr rest (checked1, sibling)

/-- Per-block step of shortestDistanceMultiindex: extract the current block
value, advance the shifted copy of the query, and when the block table and
the candidate list exist fold the candidate loop over it. -/
def mindexStep (q : FuzzyHash) (arr : List FuzzyHash) (tables : List (Option IndexTable))
    (blockMask blockSize : Nat) (st : FuzzyHash × List Nat × Sibling) (b : Nat) :
    FuzzyHash × List Nat × Sibling :=
  let blockValue := andMask st.1 blockMask
  let rest := rsh st.1 blockSize
  match tables.getD b none with
  | none => (rest, st.2)
  | some t =>
    match tableGet? t (blockValue % 2 ^ 16) with
    | none => (rest, st.2)
    | some candidates => (rest, processCandidates q arr candidates st.2)

/-- shortestDistanceMultiindex from hamming.go: for every block position,
look up the candidate indices stored under the query's block value, dedupe
with a per-query counter array sized to the hashes array, and track the
minimum true Hamming distance, starting from config.HashSize. -/
def shortestDistanceMultiindex (h : H) (hash : FuzzyHash) : Sibling :=
  let blockMask := goBlockMask h.blockSize
  let checked0 := List.replicate h.hashes.length 0
  let init : FuzzyHash × List Nat × Sibling :=
    (hash, checked0, { s := [], distance := h.config.HashSize })
  ((List.range h.blocks).foldl
    (mindexStep hash h.hashes h.multiIndexTables blockMask h.blockSize) init).2.2

/-- Distance from hamming.go: the strategy selected in New, brute force
unless config.UseMultiindex. -/
def Distance (h : H) (hash : FuzzyHash) : Sibling :=
  if h.config.UseMultiindex then shortestDistanceMultiindex h hash
  else shortestDistanceBruteForce h hash

/-- ShortestDistance from hamming.go: an exact identity-map hit answers
distance 0 with the query itself, otherwise the configured strategy runs. -/
def ShortestDistance (h : H) (hash : FuzzyHash) : Sibling :=
  if Contains h hash then { s := hash, distance := 0 }
  else Distance h hash

set_option maxHeartbeats 2000000 in
/-- The vTable Pearson permutation table from the TLSH source file,
verbatim. -/
def vTable : List Nat :=
  [1, 87, 49, 12, 176, 178, 102, 166, 121, 193, 6, 84, 249, 230, 44, 163,
   14, 197, 213, 181, 161, 85, 218, 80, 64, 239, 24, 226, 236, 142, 38, 200,
   110, 177, 104, 103, 141, 253, 255, 50, 77, 101, 81, 18, 45, 96, 31, 222,
   25, 107, 190, 70, 86, 237, 240, 34, 72, 242, 20, 214, 244, 227, 149, 235,
   97, 234, 57, 22, 60, 250, 82, 175, 208, 5, 127, 199, 111, 62, 135, 248,
   174, 169, 211, 58, 66, 154, 106, 195, 245, 171, 17, 187, 182, 179, 0, 243,
   132, 56, 148, 75, 128, 133, 158, 100, 130, 126, 91, 13, 153, 246, 216, 219,
   119, 68, 223, 78, 83, 88, 201, 99, 122, 11, 92, 32, 136, 114, 52, 10,
   138, 30, 48, 183, 156, 35, 61, 26, 143, 74, 251, 94, 129, 162, 63, 152,
   170, 7, 115, 167, 241, 206, 3, 150, 55, 59, 151, 220, 90, 53, 23, 131,
   125, 173, 15, 238, 79, 95, 89, 16, 105, 137, 225, 224, 217, 160, 37, 123,
   118, 73, 2, 157, 46, 116, 9, 145, 134, 228, 207, 212, 202, 215, 69, 229,
   27, 188, 67, 124, 168, 252, 42, 4, 29, 108, 21, 247, 19, 205, 39, 203,
   233, 40, 186, 147, 198, 192, 155, 33, 164, 191, 98, 204, 165, 180, 117, 76,
   140, 36, 210, 172, 41, 54, 159, 8, 185, 232, 113, 196, 231, 47, 146, 120,
   51, 65, 28, 144, 254, 221, 93, 189, 194, 139, 112, 43, 71, 109, 184, 209]

/-- pearsonHash from the TLSH source file: four chained vTable lookups keyed
by XOR with the salt and the three key bytes. -/
def pearsonHash (salt k0 k1 k2 : Nat) : Nat :=
  let h0 := vTable.getD (0 ^^^ salt) 0
  let h1 := vTable.getD (h0 ^^^ k0) 0
  let h2 := vTable.getD (h1 ^^^ k1) 0
  vTable.getD (h2 ^^^ k2) 0

/-- Increment of one bucket counter (the Go buckets array is 256 wide and
pearsonHash always returns a byte, so the index is in range). -/
def bumpBucket (buckets : List Nat) (i : Nat) : List Nat :=
  buckets.set i (buckets.getD i 0 + 1)

/-- One window position of fillBuckets, exactly as the Go loop body threads
the chunk3 scratch: chunk3 starts as (c0, c1, checksum) for the checksum
update, then its third and second slots are successively overwritten to
produce the six bucket hashes with salts 2, 3, 5, 7, 11, 13. -/
def fillStep (chunk : List Nat) (buckets : List Nat) (checksum : Nat) : List Nat × Nat :=
  let c0 := chunk.getD 0 0
  let c1 := chunk.getD 1 0
  let c2 := chunk.getD 2 0
  let c3 := chunk.getD 3 0
  let c4 := chunk.getD 4 0
  let checksum1 := pearsonHash 0 c0 c1 checksum
  let b1 := bumpBucket buckets (pearsonHash 2 c0 c1 c2)
  let b2 := bumpBucket b1 (pearsonHash 3 c0 c1 c3)
  let b3 := bumpBucket b2 (pearsonHash 5 c0 c2 c3)
  let b4 := bumpBucket b3 (pearsonHash 7 c0 c2 c4)
  let b5 := bumpBucket b4 (pearsonHash 11 c0 c1 c4)
  let b6 := bumpBucket b5 (pearsonHash 13 c0 c3 c4)
  (b6, checksum1)

/-- Loop of fillBuckets after the bootstrap window: process the current
window, then slide one byte in from the remaining stream (chunk[1..5] gets
chunk[0..4], the new byte becomes chunk[0]); EOF ends the loop after the
final window has been processed. -/
def fillLoop : List Nat → List Nat → List Nat → Nat → Nat → List Nat × Nat × Nat
  | rest, chunk, buckets, checksum, fileSize =>
    let r := fillStep chunk buckets checksum
    match rest with
    | [] => (r.1, r.2, fileSize)
    | b :: rest1 =>
        fillLoop rest1 (b :: chunk.take 4) r.1 r.2 (fileSize + 1)

/-- fillBuckets from the TLSH source file over an in-memory byte slice
(bytes.NewReader): the initial Read on a 5-byte buffer errors only when the
stream is empty, otherwise it returns min(5, len) bytes and the rest of the
buffer keeps its zero fill; the window is then reversed so chunk[0] is the
most recent byte. -/
def fillBuckets (blob : List Nat) : Except Unit (List Nat × Nat × Nat) :=
  if blob.length = 0 then .error ()
  else
    let n := min 5 blob.length
    let chunkSlice := blob.take 5 ++ List.replicate (5 - n) 0
    let chunk := chunkSlice.reverse
    .ok (fillLoop (blob.drop 5) chunk (List.replicate 256 0) 0 n)

/-- Modelled from the spec: the per-window update exactly as claim C9 words
it, with the salts 2, 3, 5, 7, 11, 13 applied in that order to the triples
(c0,c1,c2), (c0,c1,c3), (c0,c2,c3), (c0,c1,c4), (c0,c2,c4), (c0,c3,c4). -/
def fillStepClaim (chunk : List Nat) (buckets : List Nat) (checksum : Nat) : List Nat × Nat :=
  let c0 := chunk.getD 0 0
  let c1 := chunk.getD 1 0
  let c2 := chunk.getD 2 0
  let c3 := chunk.getD 3 0
  let c4 := chunk.getD 4 0
  let checksum1 := pearsonHash 0 c0 c1 checksum
  let b1 := bumpBucket buckets (pearsonHash 2 c0 c1 c2)
  let b2 := bumpBucket b1 (pearsonHash 3 c0 c1 c3)
  let b3 := bumpBucket b2 (pearsonHash 5 c0 c2 c3)
  let b4 := bumpBucket b3 (pearsonHash 7 c0 c1 c4)
  let b5 := bumpBucket b4 (pearsonHash 11 c0 c2 c4)
  let b6 := bumpBucket b5 (pearsonHash 13 c0 c3 c4)
  (b6, checksum1)

/-- Modelled from the spec: fillBuckets with the per-window update replaced
by the wording of claim C9, for comparison against the code. -/
def fillLoopClaim : List Nat → List Nat → List Nat → Nat → Nat → List Nat × Nat × Nat
  | rest, chunk, buckets, checksum, fileSize =>
    let r := fillStepClaim chunk buckets checksum
    match rest with
    | [] => (r.1, r.2, fileSize)
    | b :: rest1 =>
        fillLoopClaim rest1 (b :: chunk.take 4) r.1 r.2 (fileSize + 1)

/-- Modelled from the spec: whole-stream bucket accumulation as claim C9
describes it. -/
def fillBucketsClaim (blob : List Nat) : Except Unit (List Nat × Nat × Nat) :=
  if blob.length = 0 then .error ()
  else
    let n := min 5 blob.length
    let chunkSlice := blob.take 5 ++ List.replicate (5 - n) 0
    let chunk := chunkSlice.reverse
    .ok (fillLoopClaim (blob.drop 5) chunk (List.replicate 256 0) 0 n)

/-- Folding Add over a list of hashes, keeping only the state: the index an
application builds by a sequence of Add calls (the claims about search
results quantify over such states). -/
def addAll (h : H) (vs : List FuzzyHash) : H :=
  vs.foldl (fun h v => (Add h v).1) h

/-- Specification-side recursion for AddBulk: apply Add to every element and
conjoin all the results. -/
def addBulkSpec : H → List FuzzyHash → H × Bool
  | h, [] => (h, true)
  | h, v :: rest =>
      let r := Add h v
      let r2 := addBulkSpec r.1 rest
      (r2.1, r.2 && r2.2)

/-- Specification-side recursion for the actual RemoveBulk behaviour: apply
remove to successive elements only while every previous remove succeeded;
after the first failure the remaining elements are left untouched. -/
def removeBulkSpec : H → List FuzzyHash → H × Bool
  | h, [] => (h, true)
  | h, v :: rest =>
      let r := remove h v
      if r.2 then removeBulkSpec r.1 rest else (r.1, false)

/-- Modelled from the spec (amended claim C9): the six bucket positions of
one window, named by salt and triple: salts 2, 3, 5, 7, 11, 13 on the
triples (c0,c1,c2), (c0,c1,c3), (c0,c2,c3), (c0,c2,c4), (c0,c1,c4),
(c0,c3,c4) in that order. -/
def sixBucketPositions (c0 c1 c2 c3 c4 : Nat) : List Nat :=
  [pearsonHash 2 c0 c1 c2, pearsonHash 3 c0 c1 c3, pearsonHash 5 c0 c2 c3,
   pearsonHash 7 c0 c2 c4, pearsonHash 11 c0 c1 c4, pearsonHash 13 c0 c3 c4]

/-- Lowercase of an ASCII byte, the case folding the hex round-trip claim
refers to. -/
def toLowerByte (b : Nat) : Nat :=
  if 65 ≤ b ∧ b ≤ 90 then b + 32 else b

/-- A byte is an ASCII hex digit: 0-9, A-F or a-f. -/
def isHexByte (b : Nat) : Prop :=
  (48 ≤ b ∧ b ≤ 57) ∨ (65 ≤ b ∧ b ≤ 70) ∨ (97 ≤ b ∧ b ≤ 102)

instance (b : Nat) : Decidable (isHexByte b) := by
  unfold isHexByte; infer_instance

/-! Concrete states used by counterexamples and witnesses. -/

/-- A fresh multi-index instance with hash_size 64 and max_distance 1
(blocks = 2, block_size = 32). -/
def hM0 : H :=
  { config := { HashSize := 64, MaxDistance := 1, UseMultiindex := true },
    hashes := [], multiIndexTables := List.replicate 256 none, hashesLookup := [],
    blocks := 2, blockSize := 32, lastBlockSize := 32 }

/-- The state of hM0 after adding 0x0000111100000000, 0 and 2^64 - 1. -/
def hM3 : H :=
  (Add (Add (Add hM0 [0x0000111100000000]).1 [0]).1 [0xFFFFFFFFFFFFFFFF]).1

/-- The state of hM3 after removing the first of the three values. -/
def hMRem : H :=
  (remove hM3 [0x0000111100000000]).1

/-- A fresh brute-force instance with hash_size 64. -/
def hB0 : H :=
  { config := { HashSize := 64, MaxDistance := 0, UseMultiindex := false },
    hashes := [], multiIndexTables := List.replicate 256 none, hashesLookup := [],
    blocks := 1, blockSize := 64, lastBlockSize := 64 }

/-! Association-list map lemmas. -/

theorem lookupGet?_insert_self (m : List (FuzzyHash × Nat)) (k : FuzzyHash) (n : Nat) :
    lookupGet? (lookupInsert m k n) k = some n := by
  induction m with
  | nil => simp [lookupInsert, lookupGet?]
  | cons p rest ih =>
      by_cases hk : p.1 = k
      · simp [lookupInsert, hk, lookupGet?]
      · simpa [lookupInsert, hk, lookupGet?] using ih

theorem lookupGet?_insert_other (m : List (FuzzyHash × Nat)) (k k' : FuzzyHash) (n : Nat)
    (h : k ≠ k') : lookupGet? (lookupInsert m k n) k' = lookupGet? m k' := by
  induction m with
  | nil => simp [lookupInsert, lookupGet?, h]
  | cons p rest ih =>
      by_cases hk : p.1 = k
      · simp [lookupInsert, hk, lookupGet?, h]
      · simp [lookupInsert, hk, lookupGet?]
        split <;> simp_all

theorem lookupErase_cons (k1 : FuzzyHash) (v1 : Nat) (rest : List (FuzzyHash × Nat))
    (key : FuzzyHash) :
    lookupErase ((k1, v1) :: rest) key =
      if k1 = key then lookupErase rest key else (k1, v1) :: lookupErase rest key := by
  by_cases hk : k1 = key <;> simp [lookupErase, List.filter_cons, hk]

theorem lookupGet?_erase_self (m : List (FuzzyHash × Nat)) (k : FuzzyHash) :
    lookupGet? (lookupErase m k) k = none := by
  induction m with
  | nil => simp [lookupErase, lookupGet?]
  | cons p rest ih =>
      obtain ⟨k1, v1⟩ := p
      rw [lookupErase_cons]
      by_cases hk : k1 = k
      · simpa [hk] using ih
      · simpa [lookupGet?, hk] using ih

theorem lookupGet?_erase_other (m : List (FuzzyHash × Nat)) (k k' : FuzzyHash) (h : k ≠ k') :
    lookupGet? (lookupErase m k) k' = lookupGet? m k' := by
  induction m with
  | nil => simp [lookupErase, lookupGet?]
  | cons p rest ih =>
      obtain ⟨k1, v1⟩ := p
      rw [lookupErase_cons]
      by_cases hk : k1 = k
      · subst hk
        have hk' : ¬ k1 = k' := h
        simp [lookupGet?, hk', ih]
      · simp only [hk, if_false]
        by_cases hk' : k1 = k' <;> simp [lookupGet?, hk', ih]

/-! State-shape lemmas for Add and remove. -/

theorem Add_fst_hashesLookup (h : H) (v : FuzzyHash) :
    (Add h v).1.hashesLookup =
      if (lookupGet? h.hashesLookup v).isSome then h.hashesLookup
      else lookupInsert h.hashesLookup v h.hashes.length := by
  by_cases hc : (lookupGet? h.hashesLookup v).isSome <;>
    simp only [Add, hc, if_true, if_false, Bool.false_eq_true] <;> split <;> rfl

theorem Add_fst_hashes (h : H) (v : FuzzyHash) :
    (Add h v).1.hashes =
      if (lookupGet? h.hashesLookup v).isSome then h.hashes else h.hashes ++ [v] := by
  by_cases hc : (lookupGet? h.hashesLookup v).isSome <;>
    simp only [Add, hc, if_true, if_false, Bool.false_eq_true] <;> split <;> rfl

theorem Add_fst_config (h : H) (v : FuzzyHash) : (Add h v).1.config = h.config := by
  by_cases hc : (lookupGet? h.hashesLookup v).isSome <;>
    simp only [Add, hc, if_true, if_false, Bool.false_eq_true] <;> split <;> rfl

theorem Add_snd (h : H) (v : FuzzyHash) :
    (Add h v).2 = !(lookupGet? h.hashesLookup v).isSome := by
  by_cases hc : (lookupGet? h.hashesLookup v).isSome <;>
    simp only [Add, hc, if_true, if_false, Bool.false_eq_true] <;> first | rfl | (split <;> rfl)

theorem remove_fst_hashesLookup (h : H) (v : FuzzyHash) :
    (remove h v).1.hashesLookup =
      match lookupGet? h.hashesLookup v with
      | none => h.hashesLookup
      | some _ => lookupErase h.hashesLookup v := by
  unfold remove
  cases hc : lookupGet? h.hashesLookup v with
  | none => rfl
  | some i => simp only []; split <;> rfl

theorem remove_snd (h : H) (v : FuzzyHash) :
    (remove h v).2 = (lookupGet? h.hashesLookup v).isSome := by
  unfold remove
  cases hc : lookupGet? h.hashesLookup v with
  | none => rfl
  | some i => simp only []; split <;> rfl

/-- Claim C3: after Add(v) the value is contained; after Remove(v) it is
not; a second Add of a present value returns false; Remove of an absent
value returns false.  Holds in every state. -/
theorem c3_add_contains_remove (h : H) (v : FuzzyHash) :
    Contains (Add h v).1 v = true ∧
    Contains (remove h v).1 v = false ∧
    (Contains h v = true → (Add h v).2 = false) ∧
    (Contains h v = false → (remove h v).2 = false) := by
  refine ⟨?_, ?_, ?_, ?_⟩
  · rw [Contains, Add_fst_hashesLookup]
    by_cases hc : (lookupGet? h.hashesLookup v).isSome
    · simpa [hc] using hc
    · simp [hc, lookupGet?_insert_self]
  · rw [Contains, remove_fst_hashesLookup]
    cases hc : lookupGet? h.hashesLookup v with
    | none => simpa [Contains] using congrArg Option.isSome hc
    | some i => simp [lookupGet?_erase_self]
  · intro hc
    rw [Contains] at hc
    simp [Add_snd, hc]
  · intro hc
    rw [Contains] at hc
    simp [remove_snd, hc]

/-- Witness for C3 at a concrete state and value. -/
theorem c3_add_contains_remove_witness :
    Contains (Add hB0 [5]).1 [5] = true ∧
    Contains (remove hB0 [5]).1 [5] = false ∧
    (Contains hB0 [5] = true → (Add hB0 [5]).2 = false) ∧
    (Contains hB0 [5] = false → (remove hB0 [5]).2 = false) :=
  c3_add_contains_remove hB0 [5]

/-! Bulk operation equivalences (claim C5). -/

theorem AddBulk_foldl (vs : List FuzzyHash) :
    ∀ (h : H) (b : Bool),
      vs.foldl (fun st hash => let r := Add st.1 hash; (r.1, r.2 && st.2)) (h, b) =
        ((addBulkSpec h vs).1, (addBulkSpec h vs).2 && b) := by
  induction vs with
  | nil => intro h b; simp [addBulkSpec]
  | cons v rest ih =>
      intro h b
      simp only [List.foldl_cons, addBulkSpec, ih, Prod.mk.injEq, true_and]
      simp [Bool.and_assoc, Bool.and_comm, Bool.and_left_comm]

theorem RemoveBulk_foldl_false (vs : List FuzzyHash) (h : H) :
    vs.foldl (fun st hash => if st.2 then remove st.1 hash else st) (h, false) = (h, false) := by
  induction vs generalizing h with
  | nil => rfl
  | cons v rest ih => simpa using ih h

theorem RemoveBulk_foldl_true (vs : List FuzzyHash) :
    ∀ h : H,
      vs.foldl (fun st hash => if st.2 then remove st.1 hash else st) (h, true) =
        removeBulkSpec h vs := by
  induction vs with
  | nil => intro h; rfl
  | cons v rest ih =>
      intro h
      rw [List.foldl_cons]
      have hhead : (if (h, true).2 = true then remove (h, true).1 v else (h, true))
          = remove h v := by simp
      rw [hhead]
      cases hr : (remove h v).2 with
      | true =>
          have hpair : remove h v = ((remove h v).1, true) := by rw [← hr]
          rw [hpair, ih]
          simp [removeBulkSpec, hr]
      | false =>
          have hpair : remove h v = ((remove h v).1, false) := by rw [← hr]
          rw [hpair, RemoveBulk_foldl_false]
          simp [removeBulkSpec, hr]

/-- Claim C5 (amended): AddBulk applies Add to every element and returns the
conjunction of the results; RemoveBulk applies remove only while every
previous remove succeeded (the Go && short-circuits), returning false as
soon as one fails and leaving the remaining elements untouched. -/
theorem c5_bulk_semantics (h : H) (vs : List FuzzyHash) :
    AddBulk h vs = addBulkSpec h vs ∧ RemoveBulk h vs = removeBulkSpec h vs := by
  constructor
  · rw [AddBulk, AddBulk_foldl]
    simp
  · rw [RemoveBulk, RemoveBulk_foldl_true]

/-- Counterexample to claim C5 as stated: with [5] stored, RemoveBulk over
[[7], [5]] fails on the absent [7] and then never removes [5] (it is still
contained afterwards), although a direct remove of [5] from the same state
does remove it. -/
theorem c5_counterexample :
    (RemoveBulk (Add hB0 [5]).1 [[7], [5]]).2 = false ∧
    Contains (RemoveBulk (Add hB0 [5]).1 [[7], [5]]).1 [5] = true ∧
    Contains (remove (Add hB0 [5]).1 [5]).1 [5] = false := by
  refine ⟨by decide, by decide, by decide⟩

/-! Construction validation (claim C7). -/

/-- Normal form of New: both checks and the constructed record, with the
let bindings resolved. -/
theorem New_eq (cfg : Config) :
    New cfg =
      (if cfg.HashSize % 64 ≠ 0 then .error .badHashSize
       else if cfg.MaxDistance + 1 > 255 then .error .tooManyBlocks
       else .ok { config := cfg, hashes := [],
                  multiIndexTables := List.replicate 256 none, hashesLookup := [],
                  blocks := cfg.MaxDistance + 1,
                  blockSize := cfg.HashSize / (cfg.MaxDistance + 1),
                  lastBlockSize :=
                    if (cfg.MaxDistance + 1) * (cfg.HashSize / (cfg.MaxDistance + 1)) < cfg.HashSize
                    then cfg.HashSize - cfg.MaxDistance * (cfg.HashSize / (cfg.MaxDistance + 1))
                    else cfg.HashSize / (cfg.MaxDistance + 1) }) := by
  unfold New
  rfl

/-- Claim C7 (amended): New fails with the bad-hash-size error exactly when
hash_size is not a multiple of 64, fails with the too-many-blocks error
exactly when max_distance + 1 > 255, and succeeds for every other
configuration; a block_size above 16 is not rejected (see the
counterexample). -/
theorem c7_new_validation (cfg : Config) :
    ((New cfg).toOption.isSome = true ↔ (cfg.HashSize % 64 = 0 ∧ cfg.MaxDistance + 1 ≤ 255)) ∧
    (New cfg = .error .badHashSize ↔ ¬ cfg.HashSize % 64 = 0) ∧
    (New cfg = .error .tooManyBlocks ↔ (cfg.HashSize % 64 = 0 ∧ 255 < cfg.MaxDistance + 1)) := by
  rw [New_eq]
  by_cases h1 : cfg.HashSize % 64 = 0
  · rw [if_neg (by simpa using h1)]
    by_cases h2 : cfg.MaxDistance + 1 > 255
    · rw [if_pos h2]
      exact ⟨iff_of_false (by decide) (by omega),
             iff_of_false (fun h => by cases h) (by simpa using h1),
             iff_of_true rfl ⟨h1, h2⟩⟩
    · rw [if_neg h2]
      exact ⟨iff_of_true rfl ⟨h1, by omega⟩,
             iff_of_false (fun h => by cases h) (by simpa using h1),
             iff_of_false (fun h => by cases h) (fun hx => h2 hx.2)⟩
  · rw [if_pos (by simpa using h1)]
    exact ⟨iff_of_false (by decide) (fun hx => h1 hx.1),
           iff_of_true rfl h1,
           iff_of_false (fun h => by cases h) (fun hx => h1 hx.1)⟩

/-- Counterexample to claim C7 as stated: hash_size 64 with max_distance 0
yields block_size 64 > 16 and construction succeeds anyway. -/
theorem c7_counterexample :
    (New { HashSize := 64, MaxDistance := 0, UseMultiindex := true }).toOption.map H.blockSize
      = some 64 ∧ ¬ (64 ≤ 16) := by
  refine ⟨by rfl, by omega⟩

/-! Digest bootstrap behaviour (claim C8). -/

set_option maxRecDepth 8000 in
/-- Claim C8 evaluation: the digest bucket accumulator only fails on an
empty stream; byte slices of length 1 and 4 (both shorter than the 5-byte
window) are accepted and produce a digest, contradicting the claimed
StreamTooShort behaviour. -/
theorem c8_short_stream (blob : List Nat) :
    (fillBuckets []).toOption = none ∧
    (fillBuckets [65]).toOption.isSome = true ∧
    (fillBuckets [1, 2, 3, 4]).toOption.isSome = true ∧
    ((fillBuckets blob).toOption.isSome = true ↔ blob ≠ []) := by
  refine ⟨by decide, by decide, by decide, ?_⟩
  rw [fillBuckets]
  by_cases hb : blob.length = 0
  · rw [if_pos hb]
    exact iff_of_false (by decide) (by simpa using List.length_eq_zero.mp hb)
  · rw [if_neg hb]
    exact iff_of_true rfl (fun h => hb (by simp [h]))

/-! Per-window digest update (claim C9). -/

/-- Modelled from the spec (amended claim C9): one window update written as
the claim words it after correction, six independent bucket increments at
the named salt/triple positions plus the checksum update. -/
def fillStepAmended (chunk : List Nat) (buckets : List Nat) (checksum : Nat) :
    List Nat × Nat :=
  let c0 := chunk.getD 0 0
  let c1 := chunk.getD 1 0
  let c2 := chunk.getD 2 0
  let c3 := chunk.getD 3 0
  let c4 := chunk.getD 4 0
  ((sixBucketPositions c0 c1 c2 c3 c4).foldl bumpBucket buckets, pearsonHash 0 c0 c1 checksum)

/-- Modelled from the spec (amended claim C9): the window loop with the
amended per-window update. -/
def fillLoopAmended : List Nat → List Nat → List Nat → Nat → Nat → List Nat × Nat × Nat
  | rest, chunk, buckets, checksum, fileSize =>
    let r := fillStepAmended chunk buckets checksum
    match rest with
    | [] => (r.1, r.2, fileSize)
    | b :: rest1 =>
        fillLoopAmended rest1 (b :: chunk.take 4) r.1 r.2 (fileSize + 1)

/-- Modelled from the spec (amended claim C9): whole-stream accumulation
with the amended per-window update. -/
def fillBucketsAmended (blob : List Nat) : Except Unit (List Nat × Nat × Nat) :=
  if blob.length = 0 then .error ()
  else
    let n := min 5 blob.length
    let chunkSlice := blob.take 5 ++ List.replicate (5 - n) 0
    let chunk := chunkSlice.reverse
    .ok (fillLoopAmended (blob.drop 5) chunk (List.replicate 256 0) 0 n)

theorem fillStep_eq_amended (chunk buckets : List Nat) (checksum : Nat) :
    fillStep chunk buckets checksum = fillStepAmended chunk buckets checksum := rfl

theorem fillLoop_eq_amended (rest : List Nat) :
    ∀ (chunk buckets : List Nat) (checksum fileSize : Nat),
      fillLoop rest chunk buckets checksum fileSize =
        fillLoopAmended rest chunk buckets checksum fileSize := by
  induction rest with
  | nil => intro chunk buckets checksum fileSize; rfl
  | cons b rest1 ih =>
      intro chunk buckets checksum fileSize
      rw [fillLoop, fillLoopAmended, fillStep_eq_amended]
      exact ih _ _ _ _

/-- Claim C9 (amended): the digest accumulator updates the checksum as
P(0, c0, c1, checksum) at every window position and bumps exactly the six
buckets P(2,(c0,c1,c2)), P(3,(c0,c1,c3)), P(5,(c0,c2,c3)), P(7,(c0,c2,c4)),
P(11,(c0,c1,c4)), P(13,(c0,c3,c4)), in that order (salts 7 and 11 pair with
the triples the opposite way round from the claim). -/
theorem c9_window_update (blob : List Nat) :
    fillBuckets blob = fillBucketsAmended blob := by
  simp only [fillBuckets, fillBucketsAmended, fillLoop_eq_amended]

set_option maxRecDepth 20000 in
/-- Counterexample to claim C9 as stated: on the five-byte input 0,1,2,3,4
the buckets computed by the code differ from the buckets prescribed by the
claim's pairing of salts 7 and 11 with the triples. -/
theorem c9_counterexample :
    ¬ ((fillBuckets [0, 1, 2, 3, 4]).toOption = (fillBucketsClaim [0, 1, 2, 3, 4]).toOption) := by
  decide

/-! Queries on an empty index (claim C10). -/

theorem getD_replicate_none (n i : Nat) :
    (List.replicate n (none : Option IndexTable)).getD i none = none := by
  induction n generalizing i with
  | zero => simp [List.getD]
  | succ m ih =>
      cases i with
      | zero => simp [List.replicate]
      | succ j => simpa [List.replicate] using ih j

theorem mindex_foldl_no_tables (q : FuzzyHash) (arr : List FuzzyHash)
    (tables : List (Option IndexTable)) (mask bs : Nat)
    (htab : ∀ b, tables.getD b none = none) (l : List Nat) :
    ∀ st : FuzzyHash × List Nat × Sibling,
      (l.foldl (mindexStep q arr tables mask bs) st).2 = st.2 := by
  induction l with
  | nil => intro st; rfl
  | cons b t ih =>
      intro st
      rw [List.foldl_cons]
      have hstep : (mindexStep q arr tables mask bs st b).2 = st.2 := by
        rw [mindexStep, htab b]
      rw [ih, hstep]

/-- Any state with an empty hashes array, empty identity map and no
allocated block tables answers every query with the initial sibling. -/
theorem shortest_distance_empty_state (h : H) (q : FuzzyHash)
    (e1 : h.hashes = []) (e2 : h.hashesLookup = [])
    (e3 : ∀ b, h.multiIndexTables.getD b none = none) :
    (ShortestDistance h q).distance = h.config.HashSize ∧ (ShortestDistance h q).s = [] := by
  have hcont : Contains h q = false := by simp [Contains, e2, lookupGet?]
  rw [ShortestDistance, hcont]
  simp only [Bool.false_eq_true, if_false]
  rw [Distance]
  cases hm : h.config.UseMultiindex with
  | false =>
      simp only [Bool.false_eq_true, if_false]
      rw [shortestDistanceBruteForce, e1]
      exact ⟨rfl, rfl⟩
  | true =>
      simp only [if_true]
      rw [shortestDistanceMultiindex]
      rw [mindex_foldl_no_tables _ _ _ _ _ e3]
      exact ⟨rfl, rfl⟩

/-- Claim C10: on a freshly constructed index (no fingerprints stored),
ShortestDistance returns the configured hash size as the distance and an
empty sibling value, under either strategy. -/
theorem c10_empty_index (cfg : Config) (h : H) (q : FuzzyHash) (hnew : New cfg = .ok h) :
    (ShortestDistance h q).distance = cfg.HashSize ∧ (ShortestDistance h q).s = [] := by
  rw [New_eq] at hnew
  by_cases h1 : cfg.HashSize % 64 = 0
  · rw [if_neg (by simpa using h1)] at hnew
    by_cases h2 : cfg.MaxDistance + 1 > 255
    · rw [if_pos h2] at hnew; cases hnew
    · rw [if_neg h2] at hnew
      have hh := Except.ok.inj hnew
      have e1 : h.hashes = [] := by rw [← hh]
      have e2 : h.hashesLookup = [] := by rw [← hh]
      have e3 : ∀ b, h.multiIndexTables.getD b none = none := by
        rw [← hh]; exact getD_replicate_none 256
      have hcfg : h.config = cfg := by rw [← hh]
      have := shortest_distance_empty_state h q e1 e2 e3
      rwa [hcfg] at this
  · rw [if_pos (by simpa using h1)] at hnew; cases hnew

/-- Witness for C10 on the concrete fresh multi-index instance hM0. -/
theorem c10_empty_index_witness :
    (ShortestDistance hM0 [3]).distance = 64 ∧ (ShortestDistance hM0 [3]).s = [] :=
  c10_empty_index { HashSize := 64, MaxDistance := 1, UseMultiindex := true } hM0 [3] rfl

/-! Base invariant of reachable states: the identity map and the hashes
array describe each other.  It holds after any sequence of Add calls from a
fresh index and is what the search-result claims rely on. -/

/-- Soundness of the identity map with respect to the hashes array. -/
structure InvBase (h : H) : Prop where
  lookup_sound : ∀ v i, lookupGet? h.hashesLookup v = some i →
    i < h.hashes.length ∧ h.hashes.getD i [] = v
  hashes_sound : ∀ i, i < h.hashes.length →
    lookupGet? h.hashesLookup (h.hashes.getD i []) = some i

theorem invBase_empty (h : H) (e1 : h.hashes = []) (e2 : h.hashesLookup = []) :
    InvBase h := by
  constructor
  · intro v i hv
    rw [e2] at hv
    cases hv
  · intro i hi
    rw [e1] at hi
    exact absurd hi (by simp)

theorem invBase_add (h : H) (v : FuzzyHash) (hinv : InvBase h) : InvBase (Add h v).1 := by
  by_cases hc : (lookupGet? h.hashesLookup v).isSome
  · constructor
    · intro w i hw
      rw [Add_fst_hashesLookup, if_pos hc] at hw
      rw [Add_fst_hashes, if_pos hc]
      exact hinv.lookup_sound w i hw
    · intro i hi
      rw [Add_fst_hashes, if_pos hc] at hi ⊢
      rw [Add_fst_hashesLookup, if_pos hc]
      exact hinv.hashes_sound i hi
  · have hnone : lookupGet? h.hashesLookup v = none := by
      cases hl : lookupGet? h.hashesLookup v with
      | none => rfl
      | some i => rw [hl] at hc; simp at hc
    constructor
    · intro w i hw
      rw [Add_fst_hashesLookup, if_neg hc] at hw
      rw [Add_fst_hashes, if_neg hc]
      by_cases hwv : v = w
      · subst hwv
        rw [lookupGet?_insert_self] at hw
        cases hw
        refine ⟨by simp only [List.length_append, List.length_cons, List.length_nil]; omega, ?_⟩
        rw [List.getD_eq_getElem _ _ (by simp)]
        exact List.getElem_concat_length _ _ _ rfl _
      · rw [lookupGet?_insert_other _ _ _ _ hwv] at hw
        obtain ⟨hlt, hget⟩ := hinv.lookup_sound w i hw
        refine ⟨by simp only [List.length_append, List.length_cons, List.length_nil]; omega, ?_⟩
        rw [List.getD_append _ _ _ _ hlt]
        exact hget
    · intro i hi
      rw [Add_fst_hashes, if_neg hc] at hi ⊢
      rw [Add_fst_hashesLookup, if_neg hc]
      simp only [List.length_append, List.length_cons, List.length_nil] at hi
      by_cases hend : i = h.hashes.length
      · subst hend
        have hv : (h.hashes ++ [v]).getD h.hashes.length [] = v := by
          rw [List.getD_eq_getElem _ _ (by simp)]
          exact List.getElem_concat_length _ _ _ rfl _
        rw [hv, lookupGet?_insert_self]
      · have hlt : i < h.hashes.length := by omega
        rw [List.getD_append _ _ _ _ hlt]
        have hne : v ≠ h.hashes.getD i [] := by
          intro he
          have := hinv.hashes_sound i hlt
          rw [← he, hnone] at this
          cases this
        rw [lookupGet?_insert_other _ _ _ _ hne]
        exact hinv.hashes_sound i hlt

theorem invBase_addAll (h : H) (vs : List FuzzyHash) (hinv : InvBase h) :
    InvBase (addAll h vs) := by
  induction vs generalizing h with
  | nil => exact hinv
  | cons v rest ih =>
      rw [addAll, List.foldl_cons]
      exact ih (Add h v).1 (invBase_add h v hinv)

theorem addAll_config (h : H) (vs : List FuzzyHash) : (addAll h vs).config = h.config := by
  induction vs generalizing h with
  | nil => rfl
  | cons v rest ih =>
      rw [addAll, List.foldl_cons]
      rw [show List.foldl (fun h v => (Add h v).1) (Add h v).1 rest = addAll (Add h v).1 rest
        from rfl]
      rw [ih, Add_fst_config]

/-! Brute-force fold characterization (claim C1). -/

/-- Loop body of shortestDistanceBruteForce, named for the fold lemmas. -/
def bfStep (q : FuzzyHash) (sibling : Sibling) (candidateHash : FuzzyHash) : Sibling :=
  let hammingDistance := distanceUint64s q candidateHash
  if hammingDistance < sibling.distance then
    { s := candidateHash, distance := hammingDistance }
  else sibling

theorem shortestDistanceBruteForce_eq (h : H) (q : FuzzyHash) :
    shortestDistanceBruteForce h q =
      h.hashes.foldl (bfStep q) { s := [], distance := h.config.HashSize } := rfl

theorem foldr_min_pull (l : List Nat) (a b : Nat) :
    l.foldr min (min a b) = min a (l.foldr min b) := by
  induction l with
  | nil => rfl
  | cons x t ih => simp only [List.foldr_cons, ih, min_left_comm]

theorem foldr_min_le_mem (l : List Nat) (a b : Nat) (ha : a ∈ l) : l.foldr min b ≤ a := by
  induction l with
  | nil => cases ha
  | cons x t ih =>
      rcases List.mem_cons.mp ha with hx | ht
      · subst hx
        exact min_le_left _ _
      · exact le_trans (min_le_right _ _) (ih ht)

theorem bfStep_foldl (q : FuzzyHash) (l : List FuzzyHash) :
    ∀ sib : Sibling,
      ((l.foldl (bfStep q) sib).distance = (l.map (distanceUint64s q)).foldr min sib.distance) ∧
      (l.foldl (bfStep q) sib = sib ∨
        ((l.foldl (bfStep q) sib).s ∈ l ∧
          distanceUint64s q (l.foldl (bfStep q) sib).s = (l.foldl (bfStep q) sib).distance)) := by
  induction l with
  | nil => intro sib; exact ⟨rfl, Or.inl rfl⟩
  | cons x t ih =>
      intro sib
      rw [List.foldl_cons]
      have hstep : (bfStep q sib x).distance = min (distanceUint64s q x) sib.distance := by
        simp only [bfStep]
        split
        · dsimp only
          omega
        · omega
      constructor
      · rw [(ih (bfStep q sib x)).1, hstep, foldr_min_pull, List.map_cons, List.foldr_cons]
      · rcases (ih (bfStep q sib x)).2 with heq | ⟨hmem, hdist⟩
        · rw [heq, bfStep]
          by_cases hlt : distanceUint64s q x < sib.distance
          · refine Or.inr ⟨?_, ?_⟩
            · simp [hlt]
            · simp [hlt]
          · simp only [hlt, if_false]
            exact Or.inl (by trivial)
        · exact Or.inr ⟨List.mem_cons_of_mem x hmem, hdist⟩

theorem distanceUint64s_self (q : FuzzyHash) : distanceUint64s q q = 0 := by
  rw [distanceUint64s]
  induction q with
  | nil => rfl
  | cons x t ih =>
      rw [List.zipWith_cons_cons, List.sum_cons, ih, Nat.xor_self]
      rfl

theorem mem_iff_getD (l : List FuzzyHash) (v : FuzzyHash) :
    v ∈ l ↔ ∃ i, i < l.length ∧ l.getD i [] = v := by
  rw [List.mem_iff_getElem]
  constructor
  · rintro ⟨i, hi, he⟩
    exact ⟨i, hi, by rw [List.getD_eq_getElem _ _ hi]; exact he⟩
  · rintro ⟨i, hi, he⟩
    exact ⟨i, hi, by rw [← List.getD_eq_getElem _ _ hi]; exact he⟩

/-- Claim C1 (amended): on a brute-force index built by Add calls,
ShortestDistance(q) returns the minimum of the Hamming distances to the
stored fingerprints tracked from the initial best W = hash_size; whenever
that minimum is strictly below W the returned sibling is a stored
fingerprint achieving it; and for such add-only states the stored array
coincides with the current membership set. -/
theorem c1_bruteforce_minimum (cfg : Config) (h0 : H) (vs : List FuzzyHash) (q : FuzzyHash)
    (hnew : New cfg = .ok h0) (hbf : cfg.UseMultiindex = false) :
    ((ShortestDistance (addAll h0 vs) q).distance
        = ((addAll h0 vs).hashes.map (distanceUint64s q)).foldr min cfg.HashSize) ∧
    ((ShortestDistance (addAll h0 vs) q).distance < cfg.HashSize →
      (ShortestDistance (addAll h0 vs) q).s ∈ (addAll h0 vs).hashes ∧
        distanceUint64s q (ShortestDistance (addAll h0 vs) q).s
          = (ShortestDistance (addAll h0 vs) q).distance) ∧
    (∀ v, Contains (addAll h0 vs) v = true ↔ v ∈ (addAll h0 vs).hashes) := by
  have hrec := hnew
  rw [New_eq] at hrec
  by_cases h1 : cfg.HashSize % 64 = 0
  swap
  · rw [if_pos (by simpa using h1)] at hrec; cases hrec
  rw [if_neg (by simpa using h1)] at hrec
  by_cases h2 : cfg.MaxDistance + 1 > 255
  · rw [if_pos h2] at hrec; cases hrec
  rw [if_neg h2] at hrec
  have hh0 := Except.ok.inj hrec
  have hbase0 : InvBase h0 := invBase_empty h0 (by rw [← hh0]) (by rw [← hh0])
  have hcfg0 : h0.config = cfg := by rw [← hh0]
  set hst := addAll h0 vs with hst_def
  have hinv : InvBase hst := invBase_addAll h0 vs hbase0
  have hcfg : hst.config = cfg := by rw [hst_def, addAll_config, hcfg0]
  have hmemiff : ∀ v, Contains hst v = true ↔ v ∈ hst.hashes := by
    intro v
    constructor
    · intro hv
      rw [Contains] at hv
      cases hl : lookupGet? hst.hashesLookup v with
      | none => rw [hl] at hv; cases hv
      | some i =>
          obtain ⟨hlt, hget⟩ := hinv.lookup_sound v i hl
          exact (mem_iff_getD _ _).mpr ⟨i, hlt, hget⟩
    · intro hv
      obtain ⟨i, hlt, hget⟩ := (mem_iff_getD _ _).mp hv
      rw [Contains]
      have := hinv.hashes_sound i hlt
      rw [hget] at this
      rw [this]
      rfl
  refine ⟨?_, ?_, hmemiff⟩
  all_goals
    rw [ShortestDistance]
    by_cases hcont : Contains hst q
  · -- minimum is 0 because q itself is stored
    rw [if_pos hcont]
    have hqmem : q ∈ hst.hashes := (hmemiff q).mp hcont
    have hin : (0 : Nat) ∈ hst.hashes.map (distanceUint64s q) := by
      rw [List.mem_map]
      exact ⟨q, hqmem, distanceUint64s_self q⟩
    have hle := foldr_min_le_mem _ _ cfg.HashSize hin
    dsimp only
    omega
  · rw [if_neg hcont, Distance]
    have hmul : hst.config.UseMultiindex = false := by rw [hcfg, hbf]
    rw [hmul]
    simp only [Bool.false_eq_true, if_false]
    rw [shortestDistanceBruteForce_eq]
    have := (bfStep_foldl q hst.hashes { s := [], distance := hst.config.HashSize }).1
    rw [this, hcfg]
  · rw [if_pos hcont]
    intro hlt
    refine ⟨(hmemiff q).mp hcont, distanceUint64s_self q⟩
  · rw [if_neg hcont, Distance]
    have hmul : hst.config.UseMultiindex = false := by rw [hcfg, hbf]
    rw [hmul]
    simp only [Bool.false_eq_true, if_false]
    rw [shortestDistanceBruteForce_eq]
    intro hlt
    rcases (bfStep_foldl q hst.hashes { s := [], distance := hst.config.HashSize }).2 with
      heq | ⟨hmem, hdist⟩
    · rw [heq] at hlt ⊢
      rw [hcfg] at hlt
      exact absurd hlt (by simp)
    · exact ⟨hmem, hdist⟩

/-- Witness for C1 on a one-element brute-force index. -/
theorem c1_bruteforce_minimum_witness :
    ((ShortestDistance (addAll hB0 [[5]]) [6]).distance
        = ((addAll hB0 [[5]]).hashes.map (distanceUint64s [6])).foldr min 64) ∧
    (Contains (addAll hB0 [[5]]) [5] = true ↔ [5] ∈ (addAll hB0 [[5]]).hashes) :=
  ⟨(c1_bruteforce_minimum { HashSize := 64, MaxDistance := 0, UseMultiindex := false }
      hB0 [[5]] [6] rfl rfl).1,
   (c1_bruteforce_minimum { HashSize := 64, MaxDistance := 0, UseMultiindex := false }
      hB0 [[5]] [6] rfl rfl).2.2 [5]⟩

/-- The brute-force index hB0 after adding only the all-ones word. -/
def hC1A : H := (Add hB0 [0xFFFFFFFFFFFFFFFF]).1

/-- The brute-force index hB0 after adding 0 and the all-ones word and
removing the all-ones word again. -/
def hC1B : H := (remove (Add (Add hB0 [0]).1 [0xFFFFFFFFFFFFFFFF]).1 [0xFFFFFFFFFFFFFFFF]).1

set_option maxRecDepth 4000 in
/-- Counterexample to claim C1 as stated.  First scenario: the only stored
fingerprint is at distance exactly W = 64, the returned distance 64 is the
minimum but the returned sibling value is the empty (nil) hash, not a stored
fingerprint.  Second scenario: after a Remove, the scan still sees the
removed fingerprint, returning distance 0 although the minimum over the
current membership set ({0}) is 64. -/
theorem c1_counterexample :
    ((ShortestDistance hC1A [0]).distance = 64 ∧
     (ShortestDistance hC1A [0]).s = [] ∧
     hC1A.hashes = [[0xFFFFFFFFFFFFFFFF]] ∧
     distanceUint64s [0] [0xFFFFFFFFFFFFFFFF] = 64) ∧
    (Contains hC1B [0] = true ∧ Contains hC1B [0xFFFFFFFFFFFFFFFF] = false ∧
     distanceUint64s [0xFFFFFFFFFFFFFFFF] [0] = 64 ∧
     (ShortestDistance hC1B [0xFFFFFFFFFFFFFFFF]).distance = 0) := by
  decide

set_option maxRecDepth 8000 in
/-- Claim C4 evaluated at its failing input (add three values to a
multi-index instance, remove the first): the remove reports success, yet the
identity-map entry for the value 0 points at slot 1 which now holds the
all-ones value, the block-index list for block 0 at block value 0 still
contains the removed index 0, and only the identity-map entry of the removed
value is actually gone. -/
theorem c4_remove_breaks_invariants :
    (remove hM3 [0x0000111100000000]).2 = true ∧
    lookupGet? hMRem.hashesLookup [0] = some 1 ∧
    hMRem.hashes.getD 1 [] = [0xFFFFFFFFFFFFFFFF] ∧
    (hMRem.multiIndexTables.getD 0 none).bind (fun t => tableGet? t 0) = some [0, 1] ∧
    lookupGet? hMRem.hashesLookup [0x0000111100000000] = none := by
  refine ⟨by decide, by decide, by decide, by decide, by decide⟩

set_option maxRecDepth 8000 in
/-- Counterexample to claim C2 as stated: in the post-remove state hMRem the
value 0 is stored and at Hamming distance 1 = max_distance from the query 1,
yet the multi-index search returns distance 63 (it reaches the stale index 1
which now holds the all-ones value). -/
theorem c2_counterexample :
    Contains hMRem [0] = true ∧
    distanceUint64s [1] [0] = 1 ∧
    hMRem.config.MaxDistance = 1 ∧
    (ShortestDistance hMRem [1]).distance = 63 := by
  refine ⟨by decide, by decide, by decide, by decide⟩

/-! Bit-arithmetic toolbox shared by the hex codec and the pigeonhole
argument. -/

/-- Bits of a number assembled from disjoint high and low parts. -/
theorem testBit_two_pow_mul_add (K a x i : Nat) (hx : x < 2 ^ K) :
    (2 ^ K * a + x).testBit i = if i < K then x.testBit i else a.testBit (i - K) := by
  by_cases hi : i < K
  · rw [if_pos hi]
    rw [Nat.testBit_to_div_mod, Nat.testBit_to_div_mod]
    have hKi : 2 ^ K = 2 ^ i * 2 ^ (K - i) := by
      rw [← pow_add]
      congr 1
      omega
    have hdiv : (2 ^ K * a + x) / 2 ^ i = 2 ^ (K - i) * a + x / 2 ^ i := by
      rw [hKi]
      rw [mul_assoc (2 ^ i), Nat.add_comm, Nat.add_mul_div_left _ _ (Nat.pos_pow_of_pos i (by omega))]
      omega
    rw [hdiv]
    have heven : (2 ^ (K - i) * a) % 2 = 0 := by
      have hKi2 : K - i = (K - i - 1) + 1 := by omega
      rw [hKi2, pow_succ]
      have : 2 ^ (K - i - 1) * 2 * a = 2 * (2 ^ (K - i - 1) * a) := by ring
      rw [this]
      exact Nat.mul_mod_right 2 _
    have hm2 : (2 ^ (K - i) * a + x / 2 ^ i) % 2 = x / 2 ^ i % 2 := by omega
    rw [hm2]
  · rw [if_neg hi]
    rw [Nat.testBit_to_div_mod, Nat.testBit_to_div_mod]
    have hdiv : (2 ^ K * a + x) / 2 ^ i = a / 2 ^ (i - K) := by
      have hiK : 2 ^ i = 2 ^ K * 2 ^ (i - K) := by
        rw [← pow_add]
        congr 1
        omega
      rw [hiK, ← Nat.div_div_eq_div_mul]
      congr 1
      rw [Nat.add_comm, Nat.add_mul_div_left _ _ (Nat.pos_pow_of_pos K (by omega))]
      rw [Nat.div_eq_of_lt hx]
      omega
    rw [hdiv]

/-- OR of disjoint high and low parts is their sum. -/
theorem or_two_pow_mul (K a x : Nat) (hx : x < 2 ^ K) :
    (2 ^ K * a) ||| x = 2 ^ K * a + x := by
  refine Nat.eq_of_testBit_eq fun i => ?_
  rw [Nat.testBit_or, testBit_two_pow_mul_add K a x i hx]
  have hzero : (2 ^ K * a).testBit i = (2 ^ K * a + 0).testBit i := by rw [Nat.add_zero]
  rw [hzero, testBit_two_pow_mul_add K a 0 i (Nat.pos_pow_of_pos K (by omega))]
  by_cases hi : i < K
  · rw [if_pos hi, if_pos hi]
    simp
  · rw [if_neg hi, if_neg hi]
    have : x.testBit i = false := Nat.testBit_lt_two_pow (lt_of_lt_of_le hx (Nat.pow_le_pow_right (by omega) (by omega)))
    rw [this]
    simp

/-- XOR respects the split into disjoint high and low parts. -/
theorem xor_two_pow_split (K a b x y : Nat) (hx : x < 2 ^ K) (hy : y < 2 ^ K) :
    (2 ^ K * a + x) ^^^ (2 ^ K * b + y) = 2 ^ K * (a ^^^ b) + (x ^^^ y) := by
  refine Nat.eq_of_testBit_eq fun i => ?_
  rw [Nat.testBit_xor, testBit_two_pow_mul_add K a x i hx, testBit_two_pow_mul_add K b y i hy,
    testBit_two_pow_mul_add K (a ^^^ b) (x ^^^ y) i (Nat.xor_lt_two_pow hx hy)]
  by_cases hi : i < K
  · rw [if_pos hi, if_pos hi, if_pos hi, Nat.testBit_xor]
  · rw [if_neg hi, if_neg hi, if_neg hi, Nat.testBit_xor]

/-- popCount splits over disjoint high and low parts. -/
theorem popCount_split (K : Nat) :
    ∀ (a x : Nat), x < 2 ^ K → popCount (2 ^ K * a + x) = popCount a + popCount x := by
  induction K with
  | zero =>
      intro a x hx
      have : x = 0 := by omega
      subst this
      simp [popCount_zero]
  | succ m ih =>
      intro a x hx
      rw [popCount_eq]
      by_cases hz : 2 ^ (m + 1) * a + x = 0
      · have ha : a = 0 := by
          by_contra hne
          have : 2 ^ (m + 1) * a ≥ 2 ^ (m + 1) := Nat.le_mul_of_pos_right _ (by omega)
          omega
        have hx0 : x = 0 := by omega
        subst ha
        subst hx0
        simp [popCount_zero]
      · rw [if_neg hz]
        have hdiv : (2 ^ (m + 1) * a + x) / 2 = 2 ^ m * a + x / 2 := by
          rw [pow_succ, mul_comm (2 ^ m) 2, mul_assoc, Nat.add_comm,
            Nat.add_mul_div_left _ _ (by omega : (0:Nat) < 2)]
          omega
        have hmod : (2 ^ (m + 1) * a + x) % 2 = x % 2 := by
          have : 2 ^ (m + 1) * a % 2 = 0 := by
            rw [pow_succ, mul_comm (2 ^ m) 2, mul_assoc]
            omega
          omega
        rw [hdiv, hmod, ih a (x / 2) (by
          have := Nat.div_le_self x 2
          rw [pow_succ] at hx
          omega)]
        have hxr : popCount x = popCount (x / 2) + x % 2 := by
          rw [popCount_eq]
          by_cases hx0 : x = 0
          · subst hx0
            simp [popCount_zero]
          · rw [if_neg hx0]
        omega

theorem popCount_pos (x : Nat) (hx : x ≠ 0) : 1 ≤ popCount x := by
  induction x using Nat.strong_induction_on with
  | _ x ih =>
      rw [popCount_eq, if_neg hx]
      by_cases hodd : x % 2 = 1
      · omega
      · have hx2 : x / 2 ≠ 0 := by omega
        have := ih (x / 2) (Nat.div_lt_self (by omega) (by omega)) hx2
        omega

/-! Hex codec lemmas (claim C6). -/

set_option maxRecDepth 100000 in
theorem hexTable_bounded :
    ∀ c, c < 261 → ((0 ≤ asciiCodes.getD c (-1)) ↔ isHexByte c) := by decide

set_option maxRecDepth 100000 in
theorem asciiCodes_length : asciiCodes.length = 261 := by decide

/-- A byte is scored non-negative by the asciiCodes table exactly when it is
an ASCII hex digit. -/
theorem hexTable_iff (c : Nat) : (0 ≤ asciiCodes.getD c (-1)) ↔ isHexByte c := by
  by_cases hc : c < 261
  · exact hexTable_bounded c hc
  · rw [List.getD_eq_default _ _ (by rw [asciiCodes_length]; omega)]
    constructor
    · intro h
      omega
    · intro h
      exfalso
      rcases h with h | h | h <;> omega

set_option maxRecDepth 100000 in
theorem hexTable_val_bounded :
    ∀ c, c < 261 → 0 ≤ asciiCodes.getD c (-1) →
      hexDigitByte (asciiCodes.getD c (-1)).toNat = toLowerByte c ∧
        (asciiCodes.getD c (-1)).toNat < 16 := by decide

/-- The digit value of a hex byte renders back to that byte's lowercase, and
is below 16. -/
theorem hexTable_val (c : Nat) (h : 0 ≤ asciiCodes.getD c (-1)) :
    hexDigitByte (asciiCodes.getD c (-1)).toNat = toLowerByte c ∧
      (asciiCodes.getD c (-1)).toNat < 16 := by
  by_cases hc : c < 261
  · exact hexTable_val_bounded c hc h
  · rw [List.getD_eq_default _ _ (by rw [asciiCodes_length]; omega)] at h
    omega

set_option maxRecDepth 100000 in
theorem hexDigit_table : ∀ d, d < 16 → asciiCodes.getD (hexDigitByte d) (-1) = (d : Int) := by
  decide

theorem hexDigitByte_lt (d : Nat) (h : d < 16) : hexDigitByte d < 260 := by
  rw [hexDigitByte]
  split <;> omega

/-- The low 2p hex digits of a value below 16^(2p), most significant first:
the shape of one limb rendering restricted to a suffix. -/
def limbHexFrom (x p : Nat) : List Nat :=
  (List.range (2 * p)).map (fun j => hexDigitByte (x / 16 ^ (2 * p - 1 - j) % 16))

theorem limbHex_eq_from (a : Nat) : limbHex a = limbHexFrom a 8 := by
  rw [limbHex, limbHexFrom]

theorem limbHexFrom_zero (x : Nat) : limbHexFrom x 0 = [] := rfl

theorem limbHexFrom_succ (x p : Nat) :
    limbHexFrom x (p + 1) =
      hexDigitByte (x / 16 ^ (2 * p + 1) % 16) :: hexDigitByte (x / 16 ^ (2 * p) % 16) ::
        limbHexFrom (x % 16 ^ (2 * p)) p := by
  apply List.ext_getElem
  · simp [limbHexFrom]
    omega
  intro i h1 h2
  simp only [limbHexFrom, List.getElem_map, List.getElem_range] at h1 ⊢
  rcases i with _ | _ | i
  · simp only [List.getElem_cons_zero]
    have e0 : 2 * (p + 1) - 1 - 0 = 2 * p + 1 := by omega
    rw [e0]
  · simp only [List.getElem_cons_succ, List.getElem_cons_zero]
    have e1 : 2 * (p + 1) - 1 - (0 + 1) = 2 * p := by omega
    rw [e1]
  · simp only [List.getElem_cons_succ, List.getElem_map, List.getElem_range]
    have hlen : i < 2 * p := by
      simp only [limbHexFrom, List.length_cons, List.length_map, List.length_range] at h2
      omega
    have hE : 2 * (p + 1) - 1 - (i + 1 + 1) = 2 * p - 1 - i := by omega
    rw [hE]
    congr 1
    have h16 : (16 : Nat) ^ (2 * p) = 16 ^ (2 * p - 1 - i) * 16 ^ (i + 1) := by
      rw [← pow_add]
      congr 1
      omega
    rw [h16, Nat.mod_mul_right_div_self,
      Nat.mod_mod_of_dvd _ (dvd_pow_self 16 (Nat.succ_ne_zero i))]

set_option maxRecDepth 10000 in
theorem hexDigitByte_hex : ∀ d, d < 16 → isHexByte (hexDigitByte d) := by decide

set_option maxRecDepth 10000 in
theorem hexDigitByte_lower : ∀ d, d < 16 → toLowerByte (hexDigitByte d) = hexDigitByte d := by
  decide

set_option maxRecDepth 10000 in
theorem hexDigitByte_inj :
    ∀ a, a < 16 → ∀ b, b < 16 → hexDigitByte a = hexDigitByte b → a = b := by decide

/-- Shifting a digit into the running value: the Go val<<4 | d, reduced. -/
theorem val_shift_or (val d : Nat) (hd : d < 16) (hv : val * 16 + d < 2 ^ 64) :
    ((val <<< 4) ||| d) % 2 ^ 64 = val * 16 + d := by
  have h1 : val <<< 4 = 2 ^ 4 * val := by
    rw [Nat.shiftLeft_eq]
    ring
  rw [h1, or_two_pow_mul 4 val d (by omega)]
  have h2 : 2 ^ 4 * val + d = val * 16 + d := by ring
  rw [h2, Nat.mod_eq_of_lt hv]

/-- One successful pair step of the parse loop: both characters carry hex
digit values that render back to their lowercase, and the loop continues
with the value extended by the two digits. -/
theorem parseLoop_pair (c0 c1 : Nat) (rest : List Nat) (val bytes : Nat) (acc v : List Nat)
    (hok : parseLoop (c0 :: c1 :: rest) val bytes acc = .ok v) :
    ∃ d0 d1 : Nat, d0 < 16 ∧ d1 < 16 ∧
      hexDigitByte d0 = toLowerByte c0 ∧ hexDigitByte d1 = toLowerByte c1 ∧
      ((bytes + 1 = 8 →
        parseLoop rest 0 0
          (acc ++ [(((((val <<< 4) ||| d0) % 2 ^ 64) <<< 4) ||| d1) % 2 ^ 64]) = .ok v) ∧
       (bytes + 1 ≠ 8 →
        parseLoop rest ((((((val <<< 4) ||| d0) % 2 ^ 64) <<< 4) ||| d1) % 2 ^ 64)
          (bytes + 1) acc = .ok v)) := by
  rw [parseLoop] at hok
  by_cases hd0 : asciiCodes.getD c0 (-1) < 0
  · rw [if_pos hd0] at hok
    cases hok
  rw [if_neg hd0] at hok
  by_cases hd1 : asciiCodes.getD c1 (-1) < 0
  · rw [if_pos hd1] at hok
    cases hok
  rw [if_neg hd1] at hok
  obtain ⟨hren0, hlt0⟩ := hexTable_val c0 (by omega)
  obtain ⟨hren1, hlt1⟩ := hexTable_val c1 (by omega)
  refine ⟨(asciiCodes.getD c0 (-1)).toNat, (asciiCodes.getD c1 (-1)).toNat,
    hlt0, hlt1, hren0, hren1, ?_, ?_⟩
  · intro hb
    rw [if_pos hb] at hok
    exact hok
  · intro hb
    rw [if_neg hb] at hok
    exact hok

/-- Processing one full limb (2(q+1) characters) of the parse loop: the
consumed characters are the lowercased hex rendering of the value the loop
gathers, and the loop continues after appending it. -/
theorem parseChunk (q : Nat) :
    ∀ (cs rest : List Nat) (val : Nat) (acc v : List Nat), q + 1 ≤ 8 →
      cs.length = 2 * (q + 1) → val < 16 ^ (2 * (8 - (q + 1))) →
      parseLoop (cs ++ rest) val (8 - (q + 1)) acc = .ok v →
      ∃ x, x < 16 ^ (2 * (q + 1)) ∧ limbHexFrom x (q + 1) = cs.map toLowerByte ∧
        parseLoop rest 0 0 (acc ++ [val * 16 ^ (2 * (q + 1)) + x]) = .ok v := by
  induction q with
  | zero =>
      intro cs rest val acc v hq hlen hval hok
      rcases cs with _ | ⟨c0, cs⟩
      · simp only [List.length_nil] at hlen
        omega
      rcases cs with _ | ⟨c1, cs⟩
      · simp only [List.length_cons, List.length_nil] at hlen
        omega
      rcases cs with _ | ⟨c2, cs⟩
      swap
      · simp only [List.length_cons] at hlen
        omega
      obtain ⟨d0, d1, hd0, hd1, hr0, hr1, h8, _⟩ :=
        parseLoop_pair c0 c1 rest val (8 - (0 + 1)) acc v hok
      have hcont := h8 (by omega)
      have hvb : val < 16 ^ 14 := by
        have h14 : 2 * (8 - (0 + 1)) = 14 := by omega
        rwa [h14] at hval
      have hp15 : (16 : Nat) ^ 14 * 16 = 16 ^ 15 := (pow_succ 16 14).symm
      have hp16 : (16 : Nat) ^ 15 * 16 = 16 ^ 16 := (pow_succ 16 15).symm
      have hp64 : (16 : Nat) ^ 16 = 2 ^ 64 := by norm_num
      have hv1 : val * 16 + d0 < 2 ^ 64 := by omega
      have hval1 : ((val <<< 4) ||| d0) % 2 ^ 64 = val * 16 + d0 := val_shift_or val d0 hd0 hv1
      have hv2 : (val * 16 + d0) * 16 + d1 < 2 ^ 64 := by omega
      have hval2 : (((((val <<< 4) ||| d0) % 2 ^ 64) <<< 4) ||| d1) % 2 ^ 64
          = (val * 16 + d0) * 16 + d1 := by
        rw [hval1]
        exact val_shift_or _ d1 hd1 hv2
      refine ⟨d0 * 16 + d1, by omega, ?_, ?_⟩
      · rw [limbHexFrom_succ, limbHexFrom_zero]
        have e0 : (d0 * 16 + d1) / 16 ^ (2 * 0 + 1) % 16 = d0 := by
          have h161 : (16 : Nat) ^ (2 * 0 + 1) = 16 := by norm_num
          rw [h161]
          omega
        have e1 : (d0 * 16 + d1) / 16 ^ (2 * 0) % 16 = d1 := by
          have h160 : (16 : Nat) ^ (2 * 0) = 1 := by norm_num
          rw [h160]
          omega
        rw [e0, e1, hr0, hr1]
        simp
      · have harith : (((((val <<< 4) ||| d0) % 2 ^ 64) <<< 4) ||| d1) % 2 ^ 64
            = val * 16 ^ (2 * (0 + 1)) + (d0 * 16 + d1) := by
          rw [hval2]
          have h162 : (16 : Nat) ^ (2 * (0 + 1)) = 256 := by norm_num
          rw [h162]
          ring
        rw [harith] at hcont
        exact hcont
  | succ r ih =>
      intro cs rest val acc v hq hlen hval hok
      rcases cs with _ | ⟨c0, cs⟩
      · simp only [List.length_nil] at hlen
        omega
      rcases cs with _ | ⟨c1, cs'⟩
      · simp only [List.length_cons, List.length_nil] at hlen
        omega
      have hlen' : cs'.length = 2 * (r + 1) := by
        simp only [List.length_cons] at hlen
        omega
      obtain ⟨d0, d1, hd0, hd1, hr0, hr1, _, hne⟩ :=
        parseLoop_pair c0 c1 (cs' ++ rest) val (8 - (r + 1 + 1)) acc v hok
      have hcont := hne (by omega)
      have hvb : val < 16 ^ 14 :=
        lt_of_lt_of_le hval (Nat.pow_le_pow_right (by omega) (by omega))
      have hp15 : (16 : Nat) ^ 14 * 16 = 16 ^ 15 := (pow_succ 16 14).symm
      have hp16 : (16 : Nat) ^ 15 * 16 = 16 ^ 16 := (pow_succ 16 15).symm
      have hp64 : (16 : Nat) ^ 16 = 2 ^ 64 := by norm_num
      have hv1 : val * 16 + d0 < 2 ^ 64 := by omega
      have hval1 : ((val <<< 4) ||| d0) % 2 ^ 64 = val * 16 + d0 := val_shift_or val d0 hd0 hv1
      have hv2 : (val * 16 + d0) * 16 + d1 < 2 ^ 64 := by omega
      have hval2 : (((((val <<< 4) ||| d0) % 2 ^ 64) <<< 4) ||| d1) % 2 ^ 64
          = (val * 16 + d0) * 16 + d1 := by
        rw [hval1]
        exact val_shift_or _ d1 hd1 hv2
      have hPP : (16 : Nat) ^ (2 * (8 - (r + 1))) = 16 ^ (2 * (8 - (r + 1 + 1))) * 256 := by
        have hexp : 2 * (8 - (r + 1)) = 2 * (8 - (r + 1 + 1)) + 2 := by omega
        rw [hexp, pow_add]
        norm_num
      have hv2' : (val * 16 + d0) * 16 + d1 < 16 ^ (2 * (8 - (r + 1))) := by
        rw [hPP]
        have hQ : 0 < (16 : Nat) ^ (2 * (8 - (r + 1 + 1))) := Nat.pos_pow_of_pos _ (by omega)
        omega
      have hb : 8 - (r + 1 + 1) + 1 = 8 - (r + 1) := by omega
      rw [hb, hval2] at hcont
      obtain ⟨x', hx'lt, hrender, hfinal⟩ :=
        ih cs' rest ((val * 16 + d0) * 16 + d1) acc v (by omega) hlen' hv2' hcont
      have h256 : (16 : Nat) ^ (2 * (r + 1 + 1)) = 256 * 16 ^ (2 * (r + 1)) := by
        have hexp : 2 * (r + 1 + 1) = 2 * (r + 1) + 2 := by omega
        rw [hexp, pow_add]
        ring
      have hPpos : 0 < (16 : Nat) ^ (2 * (r + 1)) := Nat.pos_pow_of_pos _ (by omega)
      refine ⟨(d0 * 16 + d1) * 16 ^ (2 * (r + 1)) + x', ?_, ?_, ?_⟩
      · rw [h256]
        have h1 : (d0 * 16 + d1) * 16 ^ (2 * (r + 1)) + x'
            < (d0 * 16 + d1 + 1) * 16 ^ (2 * (r + 1)) := by
          have hs : (d0 * 16 + d1 + 1) * 16 ^ (2 * (r + 1))
              = (d0 * 16 + d1) * 16 ^ (2 * (r + 1)) + 16 ^ (2 * (r + 1)) := by ring
          omega
        have h2 : (d0 * 16 + d1 + 1) * 16 ^ (2 * (r + 1)) ≤ 256 * 16 ^ (2 * (r + 1)) :=
          Nat.mul_le_mul_right _ (by omega)
        omega
      · rw [limbHexFrom_succ]
        have hxP : ((d0 * 16 + d1) * 16 ^ (2 * (r + 1)) + x') / 16 ^ (2 * (r + 1))
            = d0 * 16 + d1 := by
          have hsw : (d0 * 16 + d1) * 16 ^ (2 * (r + 1)) + x'
              = x' + 16 ^ (2 * (r + 1)) * (d0 * 16 + d1) := by ring
          rw [hsw, Nat.add_mul_div_left _ _ hPpos, Nat.div_eq_of_lt hx'lt]
          omega
        have e0 : ((d0 * 16 + d1) * 16 ^ (2 * (r + 1)) + x') / 16 ^ (2 * (r + 1) + 1) % 16
            = d0 := by
          have hsplit : (16 : Nat) ^ (2 * (r + 1) + 1) = 16 ^ (2 * (r + 1)) * 16 := pow_succ 16 _
          rw [hsplit, ← Nat.div_div_eq_div_mul, hxP]
          omega
        have e1 : ((d0 * 16 + d1) * 16 ^ (2 * (r + 1)) + x') / 16 ^ (2 * (r + 1)) % 16
            = d1 := by
          rw [hxP]
          omega
        have e2 : ((d0 * 16 + d1) * 16 ^ (2 * (r + 1)) + x') % 16 ^ (2 * (r + 1)) = x' := by
          have hsw : (d0 * 16 + d1) * 16 ^ (2 * (r + 1)) + x'
              = x' + 16 ^ (2 * (r + 1)) * (d0 * 16 + d1) := by ring
          rw [hsw, Nat.add_mul_mod_self_left, Nat.mod_eq_of_lt hx'lt]
        rw [e0, e1, e2, hrender, hr0, hr1]
        simp
      · have harith : ((val * 16 + d0) * 16 + d1) * 16 ^ (2 * (r + 1)) + x'
            = val * 16 ^ (2 * (r + 1 + 1)) + ((d0 * 16 + d1) * 16 ^ (2 * (r + 1)) + x') := by
          rw [h256]
          ring
        rw [harith] at hfinal
        exact hfinal

/-- Two-characters-at-a-time induction principle matching the recursion of
parseLoop. -/
theorem twoStep_induction {motive : List Nat → Prop} (h0 : motive [])
    (h1 : ∀ c, motive [c]) (h2 : ∀ c0 c1 rest, motive rest → motive (c0 :: c1 :: rest)) :
    ∀ s, motive s := by
  have key : ∀ n (s : List Nat), s.length ≤ n → motive s := by
    intro n
    induction n with
    | zero =>
        intro s h
        have : s = [] := by
          cases s with
          | nil => rfl
          | cons a t => simp at h
        rw [this]
        exact h0
    | succ m ih =>
        intro s h
        cases s with
        | nil => exact h0
        | cons c0 t =>
            cases t with
            | nil => exact h1 c0
            | cons c1 rest =>
                refine h2 c0 c1 rest (ih rest ?_)
                simp only [List.length_cons] at h
                omega
  exact fun s => key s.length s le_rfl

/-- Success condition of the parse loop: the remaining input has even length
and only hex bytes, independently of the accumulator state. -/
theorem parseLoop_ok_iff (s : List Nat) :
    ∀ (val bytes : Nat) (acc : List Nat),
      (parseLoop s val bytes acc).toOption.isSome = true ↔
        (s.length % 2 = 0 ∧ ∀ c ∈ s, isHexByte c) := by
  induction s using twoStep_induction with
  | h0 => intro val bytes acc; simp [parseLoop, Except.toOption]
  | h1 c => intro val bytes acc; simp [parseLoop, Except.toOption]
  | h2 c0 c1 rest ih =>
      intro val bytes acc
      rw [parseLoop]
      by_cases hd0 : asciiCodes.getD c0 (-1) < 0
      · rw [if_pos hd0]
        have hnh : ¬ isHexByte c0 := by
          rw [← hexTable_iff]
          omega
        simp [Except.toOption, hnh]
      · rw [if_neg hd0]
        by_cases hd1 : asciiCodes.getD c1 (-1) < 0
        · rw [if_pos hd1]
          have hnh : ¬ isHexByte c1 := by
            rw [← hexTable_iff]
            omega
          simp [Except.toOption, hnh]
        · rw [if_neg hd1]
          have hh0 : isHexByte c0 := (hexTable_iff c0).mp (by omega)
          have hh1 : isHexByte c1 := (hexTable_iff c1).mp (by omega)
          by_cases hb : bytes + 1 = 8
          · rw [if_pos hb, ih]
            simp only [List.length_cons]
            constructor
            · rintro ⟨he, hall⟩
              exact ⟨by omega, by
                intro c hc
                simp only [List.mem_cons] at hc
                rcases hc with rfl | rfl | hc
                · exact hh0
                · exact hh1
                · exact hall c hc⟩
            · rintro ⟨he, hall⟩
              exact ⟨by omega, fun c hc => hall c (by simp [hc])⟩
          · rw [if_neg hb, ih]
            simp only [List.length_cons]
            constructor
            · rintro ⟨he, hall⟩
              exact ⟨by omega, by
                intro c hc
                simp only [List.mem_cons] at hc
                rcases hc with rfl | rfl | hc
                · exact hh0
                · exact hh1
                · exact hall c hc⟩
            · rintro ⟨he, hall⟩
              exact ⟨by omega, fun c hc => hall c (by simp [hc])⟩

/-- Limb count of a successful parse: one limb per full 16 characters,
counting the bytes already accumulated. -/
theorem parseLoop_length (s : List Nat) :
    ∀ (val bytes : Nat) (acc v : List Nat), bytes < 8 →
      parseLoop s val bytes acc = .ok v →
      v.length = acc.length + (2 * bytes + s.length) / 16 := by
  induction s using twoStep_induction with
  | h0 =>
      intro val bytes acc v hb hok
      cases hok
      simp only [List.length_nil]
      rw [Nat.div_eq_of_lt (by omega)]
      omega
  | h1 c =>
      intro val bytes acc v hb hok
      cases hok
  | h2 c0 c1 rest ih =>
      intro val bytes acc v hb hok
      rw [parseLoop] at hok
      by_cases hd0 : asciiCodes.getD c0 (-1) < 0
      · rw [if_pos hd0] at hok; cases hok
      · rw [if_neg hd0] at hok
        by_cases hd1 : asciiCodes.getD c1 (-1) < 0
        · rw [if_pos hd1] at hok; cases hok
        · rw [if_neg hd1] at hok
          by_cases hbb : bytes + 1 = 8
          · rw [if_pos hbb] at hok
            have := ih _ _ _ _ (by omega) hok
            simp only [List.length_append, List.length_cons, List.length_nil] at this ⊢
            rw [this]
            have h7 : bytes = 7 := by omega
            subst h7
            omega
          · rw [if_neg hbb] at hok
            have := ih _ _ _ _ (by omega) hok
            simp only [List.length_cons] at this ⊢
            rw [this]
            omega

/-- Every limb produced by the parse loop is a 64-bit value. -/
theorem parseLoop_limbs_lt (s : List Nat) :
    ∀ (val bytes : Nat) (acc v : List Nat), (∀ limb ∈ acc, limb < 2 ^ 64) →
      parseLoop s val bytes acc = .ok v → ∀ limb ∈ v, limb < 2 ^ 64 := by
  induction s using twoStep_induction with
  | h0 =>
      intro val bytes acc v hacc hok
      cases hok
      exact hacc
  | h1 c =>
      intro val bytes acc v hacc hok
      cases hok
  | h2 c0 c1 rest ih =>
      intro val bytes acc v hacc hok
      rw [parseLoop] at hok
      by_cases hd0 : asciiCodes.getD c0 (-1) < 0
      · rw [if_pos hd0] at hok; cases hok
      · rw [if_neg hd0] at hok
        by_cases hd1 : asciiCodes.getD c1 (-1) < 0
        · rw [if_pos hd1] at hok; cases hok
        · rw [if_neg hd1] at hok
          by_cases hbb : bytes + 1 = 8
          · rw [if_pos hbb] at hok
            refine ih _ _ _ _ ?_ hok
            intro limb hl
            rcases List.mem_append.mp hl with hl | hl
            · exact hacc limb hl
            · rcases List.mem_singleton.mp hl with rfl
              exact Nat.mod_lt _ (by omega)
          · rw [if_neg hbb] at hok
            exact ih _ _ _ _ hacc hok

/-- A successful parse of a 16k-character string appends exactly the limbs
whose rendering is the lowercased input. -/
theorem render_parse (k : Nat) :
    ∀ (s : List Nat) (acc v : List Nat), s.length = 16 * k →
      parseLoop s 0 0 acc = .ok v →
      ∃ w, v = acc ++ w ∧ ToString w = s.map toLowerByte := by
  induction k with
  | zero =>
      intro s acc v hlen hok
      have hs : s = [] := List.length_eq_zero.mp (by omega)
      subst hs
      cases hok
      exact ⟨[], by simp, by simp [ToString]⟩
  | succ m ih =>
      intro s acc v hlen hok
      have hsplit : s = s.take 16 ++ s.drop 16 := (List.take_append_drop 16 s).symm
      have hlen16 : (s.take 16).length = 2 * (7 + 1) := by
        simp only [List.length_take]
        omega
      rw [hsplit] at hok
      obtain ⟨x, hxlt, hrender, hnext⟩ :=
        parseChunk 7 (s.take 16) (s.drop 16) 0 acc v (by omega) hlen16 (by norm_num) hok
      have hx0 : 0 * 16 ^ (2 * (7 + 1)) + x = x := by omega
      rw [hx0] at hnext
      obtain ⟨w', hw'eq, hw'render⟩ := ih (s.drop 16) (acc ++ [x]) v
        (by simp only [List.length_drop]; omega) hnext
      refine ⟨x :: w', ?_, ?_⟩
      · rw [hw'eq]
        simp
      · have hcons : ToString (x :: w') = limbHex x ++ ToString w' := rfl
        rw [hcons, hw'render, limbHex_eq_from, hrender, ← List.map_append, ← hsplit]

/-- A value below 16^m is determined by its m low hex digits. -/
theorem digits_determine (m : Nat) :
    ∀ x y, x < 16 ^ m → y < 16 ^ m →
      (∀ j, j < m → x / 16 ^ j % 16 = y / 16 ^ j % 16) → x = y := by
  induction m with
  | zero =>
      intro x y hx hy _
      simp only [pow_zero] at hx hy
      omega
  | succ n ih =>
      intro x y hx hy hd
      have h0 := hd 0 (by omega)
      simp only [pow_zero, Nat.div_one] at h0
      have hxd : x / 16 < 16 ^ n := by
        rw [Nat.div_lt_iff_lt_mul (by omega)]
        rw [pow_succ] at hx
        exact hx
      have hyd : y / 16 < 16 ^ n := by
        rw [Nat.div_lt_iff_lt_mul (by omega)]
        rw [pow_succ] at hy
        exact hy
      have hrec : x / 16 = y / 16 := by
        refine ih (x / 16) (y / 16) hxd hyd ?_
        intro j hj
        have hthis := hd (j + 1) (by omega)
        have hpow : (16 : Nat) ^ (j + 1) = 16 * 16 ^ j := by
          rw [pow_succ]
          ring
        rw [hpow] at hthis
        simp only [← Nat.div_div_eq_div_mul] at hthis
        exact hthis
      omega

theorem limbHex_getD (x i : Nat) (hi : i < 16) :
    (limbHex x).getD i 0 = hexDigitByte (x / 16 ^ (15 - i) % 16) := by
  rw [limbHex, List.getD_eq_getElem _ _ (by simp [hi]), List.getElem_map, List.getElem_range]

/-- Rendering is injective on 64-bit limbs. -/
theorem limbHex_inj (x y : Nat) (hx : x < 2 ^ 64) (hy : y < 2 ^ 64)
    (h : limbHex x = limbHex y) : x = y := by
  have h16 : (16 : Nat) ^ 16 = 2 ^ 64 := by norm_num
  refine digits_determine 16 x y (by omega) (by omega) ?_
  intro j hj
  have hi : 15 - j < 16 := by omega
  have hgd : hexDigitByte (x / 16 ^ (15 - (15 - j)) % 16)
      = hexDigitByte (y / 16 ^ (15 - (15 - j)) % 16) := by
    rw [← limbHex_getD x _ hi, ← limbHex_getD y _ hi, h]
  have hjj : 15 - (15 - j) = j := by omega
  rw [hjj] at hgd
  exact hexDigitByte_inj _ (Nat.mod_lt _ (by omega)) _ (Nat.mod_lt _ (by omega)) hgd

theorem limbHex_length (a : Nat) : (limbHex a).length = 16 := by
  simp [limbHex]

theorem ToString_cons (a : Nat) (t : List Nat) :
    ToString (a :: t) = limbHex a ++ ToString t := rfl

theorem ToString_length (v : List Nat) : (ToString v).length = 16 * v.length := by
  induction v with
  | nil => rfl
  | cons a t ih =>
      rw [ToString_cons, List.length_append, ih, limbHex_length, List.length_cons]
      ring

theorem ToString_lower (v : List Nat) : (ToString v).map toLowerByte = ToString v := by
  induction v with
  | nil => rfl
  | cons a t ih =>
      rw [ToString_cons, List.map_append, ih]
      congr 1
      rw [limbHex, List.map_map]
      refine List.map_congr_left ?_
      intro j hj
      simp only [Function.comp_apply]
      exact hexDigitByte_lower _ (Nat.mod_lt _ (by omega))

theorem ToString_all_hex (v : List Nat) : ∀ c ∈ ToString v, isHexByte c := by
  intro c hc
  rw [ToString] at hc
  obtain ⟨l, hl, hcl⟩ := List.mem_flatten.mp hc
  obtain ⟨a, _, rfl⟩ := List.mem_map.mp hl
  obtain ⟨j, _, rfl⟩ := List.mem_map.mp hcl
  exact hexDigitByte_hex _ (Nat.mod_lt _ (by omega))

/-- Rendering is injective on equal-length lists of 64-bit limbs. -/
theorem ToString_inj (v : List Nat) :
    ∀ v' : List Nat, v.length = v'.length → (∀ a ∈ v, a < 2 ^ 64) → (∀ a ∈ v', a < 2 ^ 64) →
      ToString v = ToString v' → v = v' := by
  induction v with
  | nil =>
      intro v' hlen _ _ _
      cases v' with
      | nil => rfl
      | cons a t => simp at hlen
  | cons a t ih =>
      intro v' hlen hx hy h
      cases v' with
      | nil => simp at hlen
      | cons a' t' =>
          rw [ToString_cons, ToString_cons] at h
          obtain ⟨h1, h2⟩ := List.append_inj h (by rw [limbHex_length, limbHex_length])
          have ha : a = a' :=
            limbHex_inj a a' (hx a (by simp)) (hy a' (by simp)) h1
          have ht : t = t' := by
            refine ih t' (by simpa using hlen) ?_ ?_ h2
            · intro b hb
              exact hx b (by simp [hb])
            · intro b hb
              exact hy b (by simp [hb])
          rw [ha, ht]

/-- Claim C6 (amended): the hex round trip v = parse(hex(v)) holds for every
vector of 64-bit limbs; hex(parse(s)) equals the lowercase of s whenever the
parse succeeds and the length of s is a multiple of 16 (an even-length
trailing fragment shorter than one limb is silently dropped); parsing fails
exactly on odd length or a non-hex byte; and a successful parse yields
floor(length/16) limbs. -/
theorem c6_hex_roundtrip :
    (∀ v : FuzzyHash, (∀ limb ∈ v, limb < 2 ^ 64) →
      HashStringToFuzzyHash (ToString v) = .ok v) ∧
    (∀ (s : List Nat) (v : FuzzyHash), s.length % 16 = 0 →
      HashStringToFuzzyHash s = .ok v → ToString v = s.map toLowerByte) ∧
    (∀ s : List Nat, (HashStringToFuzzyHash s).toOption.isSome = true ↔
      (s.length % 2 = 0 ∧ ∀ c ∈ s, isHexByte c)) ∧
    (∀ (s : List Nat) (v : FuzzyHash), HashStringToFuzzyHash s = .ok v →
      v.length = s.length / 16) := by
  have hwrap : ∀ s : List Nat, s.length % 2 = 0 →
      HashStringToFuzzyHash s = parseLoop s 0 0 [] := by
    intro s hs
    rw [HashStringToFuzzyHash, if_neg (by omega)]
  have hwrapodd : ∀ s : List Nat, s.length % 2 ≠ 0 →
      HashStringToFuzzyHash s = .error () := by
    intro s hs
    rw [HashStringToFuzzyHash, if_pos hs]
  refine ⟨?_, ?_, ?_, ?_⟩
  · intro v hv
    have heven : (ToString v).length % 2 = 0 := by
      rw [ToString_length]
      omega
    rw [hwrap _ heven]
    have hsome : (parseLoop (ToString v) 0 0 []).toOption.isSome = true := by
      rw [parseLoop_ok_iff]
      exact ⟨heven, ToString_all_hex v⟩
    obtain ⟨v', hv'⟩ : ∃ v', parseLoop (ToString v) 0 0 [] = .ok v' := by
      cases hpl : parseLoop (ToString v) 0 0 [] with
      | error e => rw [hpl] at hsome; cases hsome
      | ok v' => exact ⟨v', rfl⟩
    have hlen' : v'.length = v.length := by
      have := parseLoop_length (ToString v) 0 0 [] v' (by omega) hv'
      rw [ToString_length] at this
      simp only [List.length_nil] at this
      omega
    have hbound' : ∀ limb ∈ v', limb < 2 ^ 64 :=
      parseLoop_limbs_lt (ToString v) 0 0 [] v' (by intro limb h; cases h) hv'
    obtain ⟨w, hweq, hwrender⟩ := render_parse v.length (ToString v) [] v'
      (by rw [ToString_length]) hv'
    simp only [List.nil_append] at hweq
    subst hweq
    rw [ToString_lower] at hwrender
    have : v' = v := ToString_inj v' v (by omega) hbound' hv hwrender
    rw [hv', this]
  · intro s v h16 hok
    have heven : s.length % 2 = 0 := by omega
    rw [hwrap _ heven] at hok
    obtain ⟨w, hweq, hwrender⟩ := render_parse (s.length / 16) s [] v (by omega) hok
    simp only [List.nil_append] at hweq
    rw [hweq, hwrender]
  · intro s
    by_cases heven : s.length % 2 = 0
    · rw [hwrap _ heven, parseLoop_ok_iff]
    · rw [hwrapodd _ heven]
      constructor
      · intro h
        cases h
      · rintro ⟨h, _⟩
        omega
  · intro s v hok
    have heven : s.length % 2 = 0 := by
      by_contra hodd
      rw [hwrapodd _ hodd] at hok
      cases hok
    rw [hwrap _ heven] at hok
    have := parseLoop_length s 0 0 [] v (by omega) hok
    simpa using this

/-- Witness for C6 at the test vector 0x1122334455667788 and at a
sixteen-character parse input. -/
theorem c6_hex_roundtrip_witness :
    HashStringToFuzzyHash (ToString [0x1122334455667788]) = .ok [0x1122334455667788] ∧
    ToString [0x1111111111111111] = (List.replicate 16 49).map toLowerByte :=
  ⟨c6_hex_roundtrip.1 [0x1122334455667788] (by decide),
   c6_hex_roundtrip.2.1 (List.replicate 16 49) [0x1111111111111111] (by decide) (by rfl)⟩

/-- Counterexample to claim C6 as stated: parsing the even-length string
"11" succeeds and yields the empty vector, whose rendering is the empty
string rather than the lowercase of "11". -/
theorem c6_counterexample :
    (HashStringToFuzzyHash [49, 49]).toOption = some [] ∧
    ToString ([] : FuzzyHash) = [] ∧
    ([] : List Nat) ≠ [49, 49].map toLowerByte := by
  refine ⟨by rfl, rfl, by decide⟩

/-! Big-integer bridge for the multi-index radius claim (C2').  The limb
vector denotes one wide natural number, limb 0 most significant; rsh, and
and the Go block mask then become division, mod and truncation on it. -/

/-- Value of a limb vector as one natural number, limb 0 most
significant. -/
def toNat : List Nat → Nat
  | [] => 0
  | a :: t => a * 2 ^ (64 * t.length) + toNat t

theorem toNat_lt (fh : List Nat) (hb : ∀ l ∈ fh, l < 2 ^ 64) :
    toNat fh < 2 ^ (64 * fh.length) := by
  induction fh with
  | nil => simp [toNat]
  | cons a t ih =>
      rw [toNat, List.length_cons]
      have ha : a < 2 ^ 64 := hb a (by simp)
      have ht := ih (fun l hl => hb l (by simp [hl]))
      have hpow : (2 : Nat) ^ (64 * (t.length + 1)) = 2 ^ 64 * 2 ^ (64 * t.length) := by
        rw [← pow_add]
        congr 1
        ring
      rw [hpow]
      calc a * 2 ^ (64 * t.length) + toNat t
          < a * 2 ^ (64 * t.length) + 2 ^ (64 * t.length) := by omega
        _ = (a + 1) * 2 ^ (64 * t.length) := by ring
        _ ≤ 2 ^ 64 * 2 ^ (64 * t.length) := Nat.mul_le_mul_right _ (by omega)

/-- The least significant limb is the value mod 2^64. -/
theorem toNat_mod_last (fh : List Nat) (hne : fh ≠ []) (hb : ∀ l ∈ fh, l < 2 ^ 64) :
    toNat fh % 2 ^ 64 = fh.getLast?.getD 0 := by
  induction fh with
  | nil => cases hne rfl
  | cons a t ih =>
      cases t with
      | nil =>
          have h1 : toNat [a] = a := by simp [toNat]
          rw [h1, Nat.mod_eq_of_lt (hb a (by simp))]
          rfl
      | cons b t' =>
          rw [toNat]
          have hlen : (b :: t').length = t'.length + 1 := rfl
          have hpow : (2 : Nat) ^ (64 * (b :: t').length) = 2 ^ 64 * 2 ^ (64 * t'.length) := by
            rw [hlen, ← pow_add]
            congr 1
            ring
          have hmod : a * 2 ^ (64 * (b :: t').length) % 2 ^ 64 = 0 := by
            rw [hpow, mul_comm (2 ^ 64) (2 ^ (64 * t'.length)), ← mul_assoc,
              mul_comm (a * 2 ^ (64 * t'.length)) (2 ^ 64)]
            exact Nat.mul_mod_right _ _
          have hrec := ih (by intro hc; cases hc) (fun l hl => hb l (by simp [hl]))
          rw [Nat.add_mod, hmod, Nat.zero_add, Nat.mod_mod_of_dvd _ (dvd_refl _), hrec]
          rfl

theorem rshAux_toNat (s t : Nat) (hs1 : 1 ≤ s) (hs2 : s < 64) (ht : t = 64 - s) :
    ∀ (fh : List Nat) (prev : Nat), prev < 2 ^ 64 → (∀ l ∈ fh, l < 2 ^ 64) →
      toNat (rshAux s t prev fh) =
          (prev % 2 ^ s * 2 ^ (64 * fh.length) + toNat fh) / 2 ^ s ∧
        (rshAux s t prev fh).length = fh.length ∧
        ∀ l ∈ rshAux s t prev fh, l < 2 ^ 64 := by
  have hst : (2 : Nat) ^ s * 2 ^ t = 2 ^ 64 := by
    rw [← pow_add]
    congr 1
    omega
  have hspos : 0 < (2 : Nat) ^ s := Nat.pos_pow_of_pos s (by omega)
  intro fh
  induction fh with
  | nil =>
      intro prev hprev hb
      refine ⟨?_, rfl, by intro l hl; cases hl⟩
      simp only [rshAux, toNat, List.length_nil, Nat.mul_zero, pow_zero, Nat.mul_one,
        Nat.add_zero]
      rw [Nat.div_eq_of_lt (Nat.mod_lt _ hspos)]
  | cons cur rest ih =>
      intro prev hprev hb
      have hcur : cur < 2 ^ 64 := hb cur (by simp)
      obtain ⟨qq, r, hqr, hr⟩ : ∃ qq r, cur = 2 ^ s * qq + r ∧ r < 2 ^ s :=
        ⟨cur / 2 ^ s, cur % 2 ^ s, (Nat.div_add_mod cur (2 ^ s)).symm, Nat.mod_lt _ hspos⟩
      have hq_lt : qq < 2 ^ t := by
        rcases Nat.lt_or_ge qq (2 ^ t) with h | h
        · exact h
        · exfalso
          have := Nat.mul_le_mul_left (2 ^ s) h
          omega
      have hshiftR : cur >>> s = qq := by
        rw [Nat.shiftRight_eq_div_pow, hqr, Nat.mul_add_div hspos, Nat.div_eq_of_lt hr,
          Nat.add_zero]
      have hshiftL : prev <<< t % 2 ^ 64 = prev % 2 ^ s * 2 ^ t := by
        rw [Nat.shiftLeft_eq, ← hst, Nat.mul_mod_mul_right]
      have hhead : (cur >>> s) ||| (prev <<< t % 2 ^ 64) = 2 ^ t * (prev % 2 ^ s) + qq := by
        rw [hshiftR, hshiftL, Nat.lor_comm, mul_comm (prev % 2 ^ s) (2 ^ t)]
        exact or_two_pow_mul t (prev % 2 ^ s) qq hq_lt
      have hmod_lt : prev % 2 ^ s < 2 ^ s := Nat.mod_lt _ hspos
      have hhead_lt : 2 ^ t * (prev % 2 ^ s) + qq < 2 ^ 64 := by
        have h1 : 2 ^ t * (prev % 2 ^ s) + 2 ^ t = 2 ^ t * (prev % 2 ^ s + 1) := by ring
        have h2 : 2 ^ t * (prev % 2 ^ s + 1) ≤ 2 ^ t * 2 ^ s :=
          Nat.mul_le_mul_left _ (by omega)
        have h3 : (2 : Nat) ^ t * 2 ^ s = 2 ^ 64 := by rw [mul_comm]; exact hst
        omega
      obtain ⟨ihv, ihlen, ihb⟩ := ih cur hcur (fun l hl => hb l (by simp [hl]))
      refine ⟨?_, by simp only [rshAux, List.length_cons, ihlen], ?_⟩
      · simp only [rshAux, toNat, ihlen, ihv, hhead]
        have hcm : cur % 2 ^ s = r := by
          rw [hqr, Nat.mul_add_mod, Nat.mod_eq_of_lt hr]
        rw [hcm]
        have hpow : (2 : Nat) ^ (64 * (cur :: rest).length)
            = 2 ^ s * (2 ^ t * 2 ^ (64 * rest.length)) := by
          rw [show 64 * (cur :: rest).length = 64 + 64 * rest.length from by
            rw [List.length_cons]; ring]
          rw [pow_add, ← hst]
          ring
        have hnum : prev % 2 ^ s * 2 ^ (64 * (cur :: rest).length)
              + (cur * 2 ^ (64 * rest.length) + toNat rest)
            = r * 2 ^ (64 * rest.length) + toNat rest
              + 2 ^ s * (2 ^ t * (prev % 2 ^ s) * 2 ^ (64 * rest.length)
                + qq * 2 ^ (64 * rest.length)) := by
          rw [hpow, hqr]
          ring
        rw [hnum, Nat.add_mul_div_left _ _ hspos]
        ring
      · intro l hl
        simp only [rshAux, List.mem_cons] at hl
        rcases hl with hl | hl
        · rw [hl, hhead]
          exact hhead_lt
        · exact ihb l hl

theorem rsh_toNat (fh : FuzzyHash) (s : Nat) (hs : s < 64) (hb : ∀ l ∈ fh, l < 2 ^ 64) :
    toNat (rsh fh s) = toNat fh / 2 ^ s ∧ (rsh fh s).length = fh.length ∧
      ∀ l ∈ rsh fh s, l < 2 ^ 64 := by
  rw [rsh]
  by_cases h0 : s = 0
  · subst h0
    rw [if_pos rfl]
    exact ⟨by rw [pow_zero, Nat.div_one], rfl, hb⟩
  · rw [if_neg h0]
    by_cases hlen : fh.length = 0
    · rw [if_pos hlen]
      have he : fh = [] := List.length_eq_zero.mp hlen
      subst he
      exact ⟨by rw [show toNat [] = 0 from rfl, Nat.zero_div], rfl, hb⟩
    · rw [if_neg hlen]
      have hs1 : 1 ≤ s := by omega
      have hsm : s % 64 = s := Nat.mod_eq_of_lt hs
      have htm : (64 - s) % 64 = 64 - s := Nat.mod_eq_of_lt (by omega)
      rw [hsm, htm]
      obtain ⟨hv, hl, hbb⟩ :=
        rshAux_toNat s (64 - s) hs1 hs rfl fh 0 (Nat.pos_pow_of_pos 64 (by omega)) hb
      refine ⟨?_, hl, hbb⟩
      rw [hv, Nat.zero_mod, Nat.zero_mul, Nat.zero_add]

/-- b applications of rsh by the block size: the shifted copy threaded
through the block loops of Add and the multi-index search. -/
def rshIter (bs : Nat) : FuzzyHash → Nat → FuzzyHash
  | v, 0 => v
  | v, b + 1 => rshIter bs (rsh v bs) b

theorem rshIter_succ_right (bs : Nat) (v : FuzzyHash) (b : Nat) :
    rshIter bs v (b + 1) = rsh (rshIter bs v b) bs := by
  induction b generalizing v with
  | zero => rfl
  | succ m ih =>
      show rshIter bs (rsh v bs) (m + 1) = rsh (rshIter bs (rsh v bs) m) bs
      exact ih (rsh v bs)

theorem rshIter_toNat (bs : Nat) (hbs : bs < 64) :
    ∀ (b : Nat) (v : FuzzyHash), (∀ l ∈ v, l < 2 ^ 64) →
      toNat (rshIter bs v b) = toNat v / 2 ^ (bs * b) ∧
        (rshIter bs v b).length = v.length ∧ ∀ l ∈ rshIter bs v b, l < 2 ^ 64 := by
  intro b
  induction b with
  | zero =>
      intro v hv
      exact ⟨by rw [Nat.mul_zero, pow_zero, Nat.div_one]; rfl, rfl, hv⟩
  | succ m ih =>
      intro v hv
      obtain ⟨h1, h2, h3⟩ := rsh_toNat v bs hbs hv
      obtain ⟨g1, g2, g3⟩ := ih (rsh v bs) h3
      refine ⟨?_, g2.trans h2, g3⟩
      show toNat (rshIter bs (rsh v bs) m) = _
      rw [g1, h1, Nat.div_div_eq_div_mul, ← pow_add,
        show bs + bs * m = bs * (m + 1) from by ring]

/-- For block sizes below 64 the Go mask expression is the usual low-bits
mask. -/
theorem goBlockMask_eq (bs : Nat) (hbs : bs < 64) : goBlockMask bs = 2 ^ bs - 1 := by
  rw [goBlockMask, Nat.shiftLeft_eq, one_mul]
  have h1 : (2 : Nat) ^ bs < 2 ^ 64 := Nat.pow_lt_pow_right (by omega) hbs
  have h2 : (1 : Nat) ≤ 2 ^ bs := Nat.one_le_two_pow
  rw [Nat.mod_eq_of_lt h1,
    show (2 : Nat) ^ bs + (2 ^ 64 - 1) = 2 ^ 64 + (2 ^ bs - 1) from by omega,
    Nat.add_mod_left]
  exact Nat.mod_eq_of_lt (by omega)

theorem andMask_toNat (fh : FuzzyHash) (bs : Nat) (hne : fh ≠ [])
    (hb : ∀ l ∈ fh, l < 2 ^ 64) (hbs : bs ≤ 64) :
    andMask fh (2 ^ bs - 1) = toNat fh % 2 ^ bs := by
  rw [andMask, Nat.and_pow_two_sub_one_eq_mod, ← toNat_mod_last fh hne hb,
    Nat.mod_mod_of_dvd _ (pow_dvd_pow 2 hbs)]

/-- The 16-bit key Add stores and the search looks up for block b: the
masked block value of the b-times shifted vector truncated to 16 bits,
exactly as both loops compute it. -/
def keyAt (bs : Nat) (w : FuzzyHash) (b : Nat) : Nat :=
  andMask (rshIter bs w b) (goBlockMask bs) % 2 ^ 16

theorem keyAt_eq (bs : Nat) (hbs : bs < 64) (w : FuzzyHash) (hne : w ≠ [])
    (hb : ∀ l ∈ w, l < 2 ^ 64) (b : Nat) :
    keyAt bs w b = toNat w / 2 ^ (bs * b) % 2 ^ bs % 2 ^ 16 := by
  obtain ⟨h1, h2, h3⟩ := rshIter_toNat bs hbs b w hb
  have hne' : rshIter bs w b ≠ [] := by
    intro hc
    apply hne
    rw [← List.length_eq_zero, ← h2, hc]
    rfl
  rw [keyAt, goBlockMask_eq bs hbs, andMask_toNat _ bs hne' h3 (by omega), h1]

/-! Pigeonhole: a query within max_distance of a stored value agrees with it
on at least one block field. -/

/-- Bit fields commute with XOR. -/
theorem xor_div_mod (x y s m : Nat) :
    (x ^^^ y) / 2 ^ s % 2 ^ m = (x / 2 ^ s % 2 ^ m) ^^^ (y / 2 ^ s % 2 ^ m) := by
  refine Nat.eq_of_testBit_eq fun i => ?_
  simp only [← Nat.shiftRight_eq_div_pow, Nat.testBit_mod_two_pow, Nat.testBit_xor,
    Nat.testBit_shiftRight]
  by_cases h : i < m <;> simp [h]

/-- The popcounts of the first n disjoint bs-wide fields of Z sum to at most
the popcount of Z. -/
theorem sum_fields_le_popCount (bs : Nat) :
    ∀ (blocks Z : Nat),
      (∑ b ∈ Finset.range blocks, popCount (Z / 2 ^ (bs * b) % 2 ^ bs)) ≤ popCount Z := by
  intro blocks
  induction blocks with
  | zero => intro Z; simp
  | succ m ih =>
      intro Z
      have hspos : 0 < (2 : Nat) ^ bs := Nat.pos_pow_of_pos bs (by omega)
      rw [Finset.sum_range_succ']
      have hsplit : popCount Z = popCount (Z / 2 ^ bs) + popCount (Z % 2 ^ bs) := by
        have h := popCount_split bs (Z / 2 ^ bs) (Z % 2 ^ bs) (Nat.mod_lt _ hspos)
        rw [Nat.div_add_mod] at h
        exact h
      have hterm : ∀ b, Z / 2 ^ (bs * (b + 1)) % 2 ^ bs
          = Z / 2 ^ bs / 2 ^ (bs * b) % 2 ^ bs := by
        intro b
        rw [show bs * (b + 1) = bs + bs * b from by ring, pow_add,
          ← Nat.div_div_eq_div_mul]
      have hzero : Z / 2 ^ (bs * 0) % 2 ^ bs = Z % 2 ^ bs := by
        rw [Nat.mul_zero, pow_zero, Nat.div_one]
      calc (∑ b ∈ Finset.range m, popCount (Z / 2 ^ (bs * (b + 1)) % 2 ^ bs))
            + popCount (Z / 2 ^ (bs * 0) % 2 ^ bs)
          = (∑ b ∈ Finset.range m, popCount (Z / 2 ^ bs / 2 ^ (bs * b) % 2 ^ bs))
            + popCount (Z % 2 ^ bs) := by
            rw [hzero, Finset.sum_congr rfl (fun b _ => by rw [hterm b])]
        _ ≤ popCount (Z / 2 ^ bs) + popCount (Z % 2 ^ bs) :=
            Nat.add_le_add_right (ih (Z / 2 ^ bs)) _
        _ = popCount Z := hsplit.symm

/-- If fewer bits differ than there are blocks, some bs-wide block field
agrees. -/
theorem pigeonhole_exists (bs blocks Zq Zv : Nat)
    (hd : popCount (Zq ^^^ Zv) < blocks) :
    ∃ b, b < blocks ∧ Zq / 2 ^ (bs * b) % 2 ^ bs = Zv / 2 ^ (bs * b) % 2 ^ bs := by
  by_contra hc
  push_neg at hc
  have hfield : ∀ b, b < blocks → 1 ≤ popCount ((Zq ^^^ Zv) / 2 ^ (bs * b) % 2 ^ bs) := by
    intro b hb
    apply popCount_pos
    intro h0
    apply hc b hb
    rw [xor_div_mod] at h0
    exact Nat.xor_eq_zero.mp h0
  have hsum : blocks ≤ ∑ b ∈ Finset.range blocks,
      popCount ((Zq ^^^ Zv) / 2 ^ (bs * b) % 2 ^ bs) := by
    calc blocks = ∑ _b ∈ Finset.range blocks, 1 := by simp
      _ ≤ _ := Finset.sum_le_sum (fun b hb => hfield b (Finset.mem_range.mp hb))
  have hb := sum_fields_le_popCount bs blocks (Zq ^^^ Zv)
  omega

/-- The limb-wise Hamming distance is the popcount of the XOR of the wide
values. -/
theorem distance_toNat (q : FuzzyHash) :
    ∀ (v : FuzzyHash), q.length = v.length → (∀ l ∈ q, l < 2 ^ 64) →
      (∀ l ∈ v, l < 2 ^ 64) → distanceUint64s q v = popCount (toNat q ^^^ toNat v) := by
  induction q with
  | nil =>
      intro v hlen _ _
      have hv : v = [] := List.length_eq_zero.mp hlen.symm
      subst hv
      simp [distanceUint64s, toNat, popCount_zero]
  | cons a t ih =>
      intro v hlen hq hv
      cases v with
      | nil => cases hlen
      | cons b u =>
          have hlen' : t.length = u.length := by
            simp only [List.length_cons] at hlen
            omega
          have ha : a < 2 ^ 64 := hq a (by simp)
          have hbu : b < 2 ^ 64 := hv b (by simp)
          have htb : ∀ l ∈ t, l < 2 ^ 64 := fun l hl => hq l (by simp [hl])
          have hub : ∀ l ∈ u, l < 2 ^ 64 := fun l hl => hv l (by simp [hl])
          have hd : distanceUint64s (a :: t) (b :: u)
              = popCount (a ^^^ b) + distanceUint64s t u := by
            rw [distanceUint64s, distanceUint64s, List.zipWith_cons_cons, List.sum_cons]
          have htlt : toNat t < 2 ^ (64 * t.length) := toNat_lt t htb
          have hult : toNat u < 2 ^ (64 * t.length) := by
            rw [hlen']
            exact toNat_lt u hub
          have hxa : toNat (a :: t) = 2 ^ (64 * t.length) * a + toNat t := by
            rw [toNat, mul_comm]
          have hxb : toNat (b :: u) = 2 ^ (64 * t.length) * b + toNat u := by
            rw [toNat, hlen', mul_comm]
          rw [hd, hxa, hxb, xor_two_pow_split _ _ _ _ _ htlt hult,
            popCount_split _ _ _ (Nat.xor_lt_two_pow htlt hult), ih u hlen' htb hub]

/-! Block-table membership and the effect of addMultiindex on it. -/

theorem getD_set_self {α : Type} (l : List α) (i : Nat) (x d : α) (h : i < l.length) :
    (l.set i x).getD i d = x := by
  rw [List.getD_eq_getElem _ _ (by rw [List.length_set]; exact h)]
  exact List.getElem_set_self _

theorem getD_set_ne {α : Type} (l : List α) (i j : Nat) (x d : α) (h : i ≠ j) :
    (l.set i x).getD j d = l.getD j d := by
  rw [List.getD_eq_getElem?_getD, List.getD_eq_getElem?_getD, List.getElem?_set_ne h]

theorem tableGet?_set_self (t : IndexTable) (k : Nat) (v : List Nat) :
    tableGet? (tableSet t k v) k = some v := by
  induction t with
  | nil => simp [tableSet, tableGet?]
  | cons p rest ih =>
      obtain ⟨k1, v1⟩ := p
      by_cases hk : k1 = k
      · simp [tableSet, hk, tableGet?]
      · simp [tableSet, hk, tableGet?, ih]

theorem tableGet?_set_other (t : IndexTable) (k k' : Nat) (v : List Nat) (h : k' ≠ k) :
    tableGet? (tableSet t k v) k' = tableGet? t k' := by
  have hkk : ¬ k = k' := fun he => h he.symm
  induction t with
  | nil => simp [tableSet, tableGet?, hkk]
  | cons p rest ih =>
      obtain ⟨k1, v1⟩ := p
      by_cases hk : k1 = k
      · subst hk
        simp [tableSet, tableGet?, hkk]
      · by_cases hk' : k1 = k'
        · subst hk'
          simp [tableSet, tableGet?, h]
        · simp [tableSet, tableGet?, hk, hk', ih]

/-- Index j is recorded in block b's table under key k. -/
def tblMem (tables : List (Option IndexTable)) (b k j : Nat) : Prop :=
  ∃ t l, tables.getD b none = some t ∧ tableGet? t k = some l ∧ j ∈ l

theorem addMultiindex_length (tables : List (Option IndexTable)) (b k i p : Nat) :
    (addMultiindex tables b k i p).length = tables.length := by
  simp only [addMultiindex]
  cases hg0 : tableGet? ((tables.getD b none).getD []) k <;>
    simp only [hg0] <;> split <;> rw [List.length_set]

theorem mem_insert_self (l : List Nat) (n i : Nat) :
    i ∈ l.take n ++ i :: l.drop n :=
  List.mem_append.mpr (Or.inr (List.mem_cons_self _ _))

theorem mem_insert_of_mem (l : List Nat) (n i j : Nat) (hj : j ∈ l) :
    j ∈ l.take n ++ i :: l.drop n := by
  have hj' : j ∈ l.take n ++ l.drop n := by
    rw [List.take_append_drop]
    exact hj
  rcases List.mem_append.mp hj' with h | h
  · exact List.mem_append.mpr (Or.inl h)
  · exact List.mem_append.mpr (Or.inr (List.mem_cons_of_mem _ h))

theorem getD_mem (l : List Nat) (n i : Nat) (hn : n < l.length) (he : l.getD n 0 = i) :
    i ∈ l := by
  rw [List.getD_eq_getElem _ _ hn] at he
  rw [← he]
  exact List.getElem_mem _

/-- addMultiindex records the inserted index under its key. -/
theorem addMultiindex_registers (tables : List (Option IndexTable)) (b k i p : Nat)
    (hb : b < tables.length) :
    tblMem (addMultiindex tables b k i p) b k i := by
  simp only [addMultiindex]
  cases hg0 : tableGet? ((tables.getD b none).getD []) k with
  | none =>
      simp only [hg0]
      have hg1 : tableGet? (tableSet ((tables.getD b none).getD []) k (List.replicate p 0)) k
          = some (List.replicate p 0) := tableGet?_set_self _ _ _
      simp only [hg1, Option.getD_some]
      split
      · next hcond =>
          obtain ⟨hlt, hge⟩ := hcond
          exact ⟨_, _, getD_set_self _ _ _ _ hb, hg1,
            getD_mem _ _ _ (by simpa using hlt) hge⟩
      · exact ⟨_, _, getD_set_self _ _ _ _ hb, tableGet?_set_self _ _ _,
          mem_insert_self _ _ _⟩
  | some l0 =>
      simp only [hg0, Option.getD_some]
      split
      · next hcond =>
          obtain ⟨hlt, hge⟩ := hcond
          exact ⟨_, _, getD_set_self _ _ _ _ hb, hg0, getD_mem _ _ _ hlt hge⟩
      · exact ⟨_, _, getD_set_self _ _ _ _ hb, tableGet?_set_self _ _ _,
          mem_insert_self _ _ _⟩

/-- addMultiindex never drops a recorded membership. -/
theorem addMultiindex_preserves (tables : List (Option IndexTable)) (b k i p : Nat)
    (hb : b < tables.length) (b' k' j : Nat) (hm : tblMem tables b' k' j) :
    tblMem (addMultiindex tables b k i p) b' k' j := by
  obtain ⟨t, l, hgt, hgl, hjl⟩ := hm
  by_cases hbb : b' = b
  · subst hbb
    simp only [addMultiindex, hgt, Option.getD_some]
    cases hg0 : tableGet? t k with
    | none =>
        have hkk : k' ≠ k := by
          intro he
          rw [he, hg0] at hgl
          cases hgl
        simp only [hg0]
        split
        · refine ⟨_, l, getD_set_self _ _ _ _ hb, ?_, hjl⟩
          rw [tableGet?_set_other _ _ _ _ hkk]
          exact hgl
        · refine ⟨_, l, getD_set_self _ _ _ _ hb, ?_, hjl⟩
          rw [tableGet?_set_other _ _ _ _ hkk, tableGet?_set_other _ _ _ _ hkk]
          exact hgl
    | some l0 =>
        simp only [hg0, Option.getD_some]
        split
        · exact ⟨t, l, getD_set_self _ _ _ _ hb, hgl, hjl⟩
        · by_cases hkk : k' = k
          · subst hkk
            have hl : l = l0 := by
              rw [hg0] at hgl
              cases hgl
              rfl
            subst hl
            exact ⟨_, _, getD_set_self _ _ _ _ hb, tableGet?_set_self _ _ _,
              mem_insert_of_mem _ _ _ _ hjl⟩
          · refine ⟨_, l, getD_set_self _ _ _ _ hb, ?_, hjl⟩
            rw [tableGet?_set_other _ _ _ _ hkk]
            exact hgl
  · have hne : b ≠ b' := fun he => hbb he.symm
    simp only [addMultiindex]
    cases hg0 : tableGet? ((tables.getD b none).getD []) k <;> simp only [hg0] <;> split <;>
      exact ⟨t, l, by rw [getD_set_ne _ _ _ _ _ hne]; exact hgt, hgl, hjl⟩

/-! The multi-index insertion loop of Add, characterized. -/

/-- Loop body of the multi-index branch of Add, named for the fold lemmas:
record the current masked block value under block b, then shift. -/
def addStep (bs idx p : Nat) (st : List (Option IndexTable) × FuzzyHash) (b : Nat) :
    List (Option IndexTable) × FuzzyHash :=
  (addMultiindex st.1 b (andMask st.2 (goBlockMask bs) % 2 ^ 16) idx p, rsh st.2 bs)

theorem Add_fst_blocks (h : H) (v : FuzzyHash) : (Add h v).1.blocks = h.blocks := by
  by_cases hc : (lookupGet? h.hashesLookup v).isSome <;>
    simp only [Add, hc, if_true, if_false, Bool.false_eq_true] <;> split <;> rfl

theorem Add_fst_blockSize (h : H) (v : FuzzyHash) : (Add h v).1.blockSize = h.blockSize := by
  by_cases hc : (lookupGet? h.hashesLookup v).isSome <;>
    simp only [Add, hc, if_true, if_false, Bool.false_eq_true] <;> split <;> rfl

theorem Add_fst_multiIndexTables (h : H) (w : FuzzyHash)
    (hc : (lookupGet? h.hashesLookup w).isSome = false)
    (hmi : h.config.UseMultiindex = true) :
    (Add h w).1.multiIndexTables =
      ((List.range h.blocks).foldl
        (addStep h.blockSize h.hashes.length
          ((lookupInsert h.hashesLookup w h.hashes.length).length
            / ((1 <<< h.blockSize) % 2 ^ 64)))
        (h.multiIndexTables, w)).1 := by
  simp only [Add, hc, Bool.false_eq_true, if_false]
  split
  · next hfalse => exact absurd hfalse (by simp [hmi])
  · rfl

theorem addStep_fold (bs idx p : Nat) (tables0 : List (Option IndexTable)) (w : FuzzyHash) :
    ∀ m : Nat, m ≤ tables0.length →
      ((List.range m).foldl (addStep bs idx p) (tables0, w)).2 = rshIter bs w m ∧
        ((List.range m).foldl (addStep bs idx p) (tables0, w)).1.length = tables0.length ∧
        (∀ b' k j, tblMem tables0 b' k j →
          tblMem ((List.range m).foldl (addStep bs idx p) (tables0, w)).1 b' k j) ∧
        ∀ b, b < m →
          tblMem ((List.range m).foldl (addStep bs idx p) (tables0, w)).1 b (keyAt bs w b) idx := by
  intro m
  induction m with
  | zero =>
      intro _
      exact ⟨rfl, rfl, fun b' k j hm => hm, fun b hb => absurd hb (by omega)⟩
  | succ n ih =>
      intro hle
      obtain ⟨ih2, ihlen, ihpres, ihreg⟩ := ih (by omega)
      rw [List.range_succ, List.foldl_append]
      rcases hmid : (List.range n).foldl (addStep bs idx p) (tables0, w) with ⟨tabs, hsh⟩
      rw [hmid] at ih2 ihlen ihpres ihreg
      simp only at ih2 ihlen ihpres ihreg
      have hn : n < tabs.length := by
        rw [ihlen]
        omega
      simp only [List.foldl_cons, List.foldl_nil, addStep]
      have hkey : andMask hsh (goBlockMask bs) % 2 ^ 16 = keyAt bs w n := by
        rw [ih2, keyAt]
      refine ⟨?_, ?_, ?_, ?_⟩
      · simp only [ih2, rshIter_succ_right]
      · rw [addMultiindex_length, ihlen]
      · intro b' k j hm
        exact addMultiindex_preserves tabs n _ idx p hn b' k j (ihpres b' k j hm)
      · intro b hb
        rcases Nat.lt_or_ge b n with hbn | hbn
        · exact addMultiindex_preserves tabs n _ idx p hn b _ idx (ihreg b hbn)
        · have hbe : b = n := by omega
          subst hbe
          rw [← hkey]
          exact addMultiindex_registers tabs b _ idx p hn

/-! The multi-index invariant: every stored index is recorded in every block
table under its own key, on top of the base identity-map invariant. -/

structure InvM (h : H) (L : Nat) : Prop where
  base : InvBase h
  len_tables : h.multiIndexTables.length = 256
  blocks_le : h.blocks ≤ 255
  wf : ∀ w ∈ h.hashes, w.length = L ∧ ∀ limb ∈ w, limb < 2 ^ 64
  mem_tables : ∀ i, i < h.hashes.length → ∀ b, b < h.blocks →
    tblMem h.multiIndexTables b (keyAt h.blockSize (h.hashes.getD i []) b) i

theorem New_ok_fields (cfg : Config) (h0 : H) (hnew : New cfg = .ok h0) :
    h0.config = cfg ∧ h0.hashes = [] ∧ h0.hashesLookup = [] ∧
      h0.multiIndexTables = List.replicate 256 none ∧
      h0.blocks = cfg.MaxDistance + 1 ∧
      h0.blockSize = cfg.HashSize / (cfg.MaxDistance + 1) ∧
      cfg.MaxDistance + 1 ≤ 255 := by
  rw [New_eq] at hnew
  by_cases h1 : cfg.HashSize % 64 ≠ 0
  · rw [if_pos h1] at hnew
    cases hnew
  · rw [if_neg h1] at hnew
    by_cases h2 : cfg.MaxDistance + 1 > 255
    · rw [if_pos h2] at hnew
      cases hnew
    · rw [if_neg h2] at hnew
      injection hnew with he
      subst he
      exact ⟨rfl, rfl, rfl, rfl, rfl, rfl, by omega⟩

theorem invM_new (cfg : Config) (h0 : H) (L : Nat) (hnew : New cfg = .ok h0) :
    InvM h0 L := by
  obtain ⟨hcfg, hh, hl, ht, hb, hbs, hble⟩ := New_ok_fields cfg h0 hnew
  refine ⟨invBase_empty h0 hh hl, ?_, ?_, ?_, ?_⟩
  · rw [ht, List.length_replicate]
  · rw [hb]
    omega
  · intro w hw
    rw [hh] at hw
    cases hw
  · intro i hi
    rw [hh] at hi
    exact absurd hi (by simp)

theorem invM_add (h : H) (L : Nat) (w : FuzzyHash) (hw : w.length = L)
    (hwb : ∀ limb ∈ w, limb < 2 ^ 64) (hmi : h.config.UseMultiindex = true)
    (hinv : InvM h L) : InvM (Add h w).1 L := by
  by_cases hc : (lookupGet? h.hashesLookup w).isSome
  · have he : (Add h w).1 = h := by
      rw [Add, if_pos hc]
    rw [he]
    exact hinv
  · have hc' : (lookupGet? h.hashesLookup w).isSome = false := by
      simpa using hc
    have htab := Add_fst_multiIndexTables h w hc' hmi
    have hhashes : (Add h w).1.hashes = h.hashes ++ [w] := by
      rw [Add_fst_hashes, if_neg hc]
    have hblocks : (Add h w).1.blocks = h.blocks := Add_fst_blocks h w
    have hbsz : (Add h w).1.blockSize = h.blockSize := Add_fst_blockSize h w
    obtain ⟨f2, flen, fpres, freg⟩ := addStep_fold h.blockSize h.hashes.length
      ((lookupInsert h.hashesLookup w h.hashes.length).length
        / ((1 <<< h.blockSize) % 2 ^ 64))
      h.multiIndexTables w h.blocks
      (by rw [hinv.len_tables]; have := hinv.blocks_le; omega)
    refine ⟨invBase_add h w hinv.base, ?_, ?_, ?_, ?_⟩
    · rw [htab, flen, hinv.len_tables]
    · rw [hblocks]
      exact hinv.blocks_le
    · intro w' hw'
      rw [hhashes] at hw'
      rcases List.mem_append.mp hw' with h1 | h1
      · exact hinv.wf w' h1
      · have : w' = w := by simpa using h1
        subst this
        exact ⟨hw, hwb⟩
    · intro i hi b hb
      rw [hhashes] at hi
      simp only [List.length_append, List.length_cons, List.length_nil] at hi
      rw [hblocks] at hb
      rw [htab, hbsz, hhashes]
      by_cases hin : i < h.hashes.length
      · rw [List.getD_append _ _ _ _ hin]
        exact fpres b _ i (hinv.mem_tables i hin b hb)
      · have hieq : i = h.hashes.length := by omega
        subst hieq
        have hgd : (h.hashes ++ [w]).getD h.hashes.length [] = w := by
          rw [List.getD_eq_getElem _ _ (by simp)]
          exact List.getElem_concat_length _ _ _ rfl _
        rw [hgd]
        exact freg b hb

theorem invM_addAll (h : H) (L : Nat) (vs : List FuzzyHash)
    (hmi : h.config.UseMultiindex = true)
    (hvs : ∀ w ∈ vs, w.length = L ∧ ∀ limb ∈ w, limb < 2 ^ 64)
    (hinv : InvM h L) : InvM (addAll h vs) L := by
  induction vs generalizing h with
  | nil => exact hinv
  | cons v rest ih =>
      rw [addAll, List.foldl_cons]
      have hv := hvs v (by simp)
      exact ih (Add h v).1 (by rw [Add_fst_config]; exact hmi)
        (fun u hu => hvs u (by simp [hu]))
        (invM_add h L v hv.1 hv.2 hmi hinv)

theorem addAll_blocks (h : H) (vs : List FuzzyHash) : (addAll h vs).blocks = h.blocks := by
  induction vs generalizing h with
  | nil => rfl
  | cons v rest ih =>
      rw [addAll, List.foldl_cons]
      rw [show List.foldl (fun h v => (Add h v).1) (Add h v).1 rest = addAll (Add h v).1 rest
        from rfl]
      rw [ih, Add_fst_blocks]

theorem addAll_blockSize (h : H) (vs : List FuzzyHash) :
    (addAll h vs).blockSize = h.blockSize := by
  induction vs generalizing h with
  | nil => rfl
  | cons v rest ih =>
      rw [addAll, List.foldl_cons]
      rw [show List.foldl (fun h v => (Add h v).1) (Add h v).1 rest = addAll (Add h v).1 rest
        from rfl]
      rw [ih, Add_fst_blockSize]

/-! Soundness of the multi-index search fold: whenever a candidate's checked
counter is positive, the tracked sibling is at most its true distance. -/

/-- The per-query search state is sound: every candidate already counted has
true distance at least the tracked best. -/
def searchSound (q : FuzzyHash) (arr : List FuzzyHash) (st : List Nat × Sibling) : Prop :=
  ∀ j, 1 ≤ st.1.getD j 0 → st.2.distance ≤ distanceUint64s q (arr.getD j [])

theorem getD_replicate_zero (n j : Nat) : (List.replicate n (0 : Nat)).getD j 0 = 0 := by
  induction n generalizing j with
  | zero => simp [List.getD]
  | succ m ih =>
      cases j with
      | zero => simp [List.replicate]
      | succ i => simpa [List.replicate] using ih i

theorem processCandidates_spec (q : FuzzyHash) (arr : List FuzzyHash) :
    ∀ (cands : List Nat) (checked : List Nat) (sib : Sibling),
      searchSound q arr (checked, sib) →
      (processCandidates q arr cands (checked, sib)).1.length = checked.length ∧
        searchSound q arr (processCandidates q arr cands (checked, sib)) ∧
        (∀ j, checked.getD j 0 ≤ (processCandidates q arr cands (checked, sib)).1.getD j 0) ∧
        ∀ j ∈ cands, j < checked.length →
          1 ≤ (processCandidates q arr cands (checked, sib)).1.getD j 0 := by
  intro cands
  induction cands with
  | nil =>
      intro checked sib hs
      exact ⟨rfl, hs, fun j => le_refl _, fun j hj => absurd hj (by simp)⟩
  | cons c rest ih =>
      intro checked sib hs
      have hlen1 : (checked.set c (checked.getD c 0 + 1)).length = checked.length :=
        List.length_set _ _ _
      have hmono : ∀ j, checked.getD j 0
          ≤ (checked.set c (checked.getD c 0 + 1)).getD j 0 := by
        intro j
        by_cases hjc : c = j
        · subst hjc
          by_cases hcl : c < checked.length
          · rw [getD_set_self _ _ _ _ hcl]
            omega
          · rw [List.set_eq_of_length_le (by omega)]
        · rw [getD_set_ne _ _ _ _ _ hjc]
      have hup : (checked.set c (checked.getD c 0 + 1)).getD c 0
          ≤ checked.getD c 0 + 1 := by
        by_cases hcl : c < checked.length
        · rw [getD_set_self _ _ _ _ hcl]
        · rw [List.set_eq_of_length_le (by omega)]
          omega
      have key : ∀ sib' : Sibling,
          searchSound q arr (checked.set c (checked.getD c 0 + 1), sib') →
          (processCandidates q arr rest
              (checked.set c (checked.getD c 0 + 1), sib')).1.length = checked.length ∧
            searchSound q arr (processCandidates q arr rest
              (checked.set c (checked.getD c 0 + 1), sib')) ∧
            (∀ j, checked.getD j 0 ≤ (processCandidates q arr rest
              (checked.set c (checked.getD c 0 + 1), sib')).1.getD j 0) ∧
            ∀ j ∈ c :: rest, j < checked.length →
              1 ≤ (processCandidates q arr rest
                (checked.set c (checked.getD c 0 + 1), sib')).1.getD j 0 := by
        intro sib' hs'
        obtain ⟨l1, s1, m1, r1⟩ := ih (checked.set c (checked.getD c 0 + 1)) sib' hs'
        refine ⟨l1.trans hlen1, s1, fun j => le_trans (hmono j) (m1 j), ?_⟩
        intro j hj hjl
        rcases List.mem_cons.mp hj with hje | hje
        · subst hje
          have h1 : 1 ≤ (checked.set j (checked.getD j 0 + 1)).getD j 0 := by
            rw [getD_set_self _ _ _ _ hjl]
            omega
          exact le_trans h1 (m1 j)
        · exact r1 j hje (by rw [hlen1]; exact hjl)
      simp only [processCandidates]
      split
      · next hskip =>
          refine key sib ?_
          intro j hj
          by_cases hjc : j = c
          · subst hjc
            refine hs j ?_
            show 1 ≤ checked.getD j 0
            omega
          · refine hs j ?_
            show 1 ≤ checked.getD j 0
            have hj' : 1 ≤ (checked.set c (checked.getD c 0 + 1)).getD j 0 := hj
            rw [getD_set_ne _ _ _ _ _ (fun he => hjc he.symm)] at hj'
            exact hj'
      · next hskip =>
          split
          · next hlt =>
              refine key _ ?_
              intro j hj
              by_cases hjc : j = c
              · subst hjc
                exact le_refl _
              · rw [getD_set_ne _ _ _ _ _ (fun he => hjc he.symm)] at hj
                exact le_trans (le_of_lt hlt) (hs j hj)
          · next hge =>
              refine key sib ?_
              intro j hj
              by_cases hjc : j = c
              · subst hjc
                exact Nat.le_of_not_lt hge
              · rw [getD_set_ne _ _ _ _ _ (fun he => hjc he.symm)] at hj
                exact hs j hj

theorem mindexStep_fst (q : FuzzyHash) (arr : List FuzzyHash)
    (tables : List (Option IndexTable)) (mask bs : Nat)
    (st : FuzzyHash × List Nat × Sibling) (b : Nat) :
    (mindexStep q arr tables mask bs st b).1 = rsh st.1 bs := by
  cases htab : tables.getD b none with
  | none => simp only [mindexStep, htab]
  | some t =>
      cases hget : tableGet? t (andMask st.1 mask % 2 ^ 16) with
      | none => simp only [mindexStep, htab, hget]
      | some cands => simp only [mindexStep, htab, hget]

theorem mindexStep_spec (q : FuzzyHash) (arr : List FuzzyHash)
    (tables : List (Option IndexTable)) (mask bs : Nat)
    (st : FuzzyHash × List Nat × Sibling) (b : Nat)
    (hs : searchSound q arr st.2) :
    (mindexStep q arr tables mask bs st b).2.1.length = st.2.1.length ∧
      searchSound q arr (mindexStep q arr tables mask bs st b).2 ∧
      ∀ j, st.2.1.getD j 0 ≤ (mindexStep q arr tables mask bs st b).2.1.getD j 0 := by
  obtain ⟨hsh, checked, sib⟩ := st
  cases htab : tables.getD b none with
  | none =>
      simp only [mindexStep, htab]
      exact ⟨trivial, hs, fun j => le_refl _⟩
  | some t =>
      cases hget : tableGet? t (andMask hsh mask % 2 ^ 16) with
      | none =>
          simp only [mindexStep, htab, hget]
          exact ⟨trivial, hs, fun j => le_refl _⟩
      | some cands =>
          simp only [mindexStep, htab, hget]
          obtain ⟨l1, s1, m1, _⟩ := processCandidates_spec q arr cands checked sib hs
          exact ⟨l1, s1, m1⟩

theorem mindexStep_registers (q : FuzzyHash) (arr : List FuzzyHash)
    (tables : List (Option IndexTable)) (mask bs : Nat)
    (st : FuzzyHash × List Nat × Sibling) (b jv : Nat)
    (hs : searchSound q arr st.2)
    (hmem : tblMem tables b (andMask st.1 mask % 2 ^ 16) jv)
    (hjv : jv < st.2.1.length) :
    1 ≤ (mindexStep q arr tables mask bs st b).2.1.getD jv 0 := by
  obtain ⟨hsh, checked, sib⟩ := st
  obtain ⟨t, l, hgt, hgl, hjl⟩ := hmem
  simp only [mindexStep, hgt, hgl]
  exact (processCandidates_spec q arr l checked sib hs).2.2.2 jv hjl hjv

theorem mindex_fold_sound (q : FuzzyHash) (arr : List FuzzyHash)
    (tables : List (Option IndexTable)) (mask bs : Nat) (l : List Nat) :
    ∀ st : FuzzyHash × List Nat × Sibling, searchSound q arr st.2 →
      searchSound q arr ((l.foldl (mindexStep q arr tables mask bs) st)).2 ∧
        ((l.foldl (mindexStep q arr tables mask bs) st)).2.1.length = st.2.1.length ∧
        ∀ j, st.2.1.getD j 0
          ≤ ((l.foldl (mindexStep q arr tables mask bs) st)).2.1.getD j 0 := by
  induction l with
  | nil => intro st hs; exact ⟨hs, rfl, fun j => le_refl _⟩
  | cons c rest ihl =>
      intro st hs
      obtain ⟨l1, s1, m1⟩ := mindexStep_spec q arr tables mask bs st c hs
      obtain ⟨s2, l2, m2⟩ := ihl (mindexStep q arr tables mask bs st c) s1
      rw [List.foldl_cons]
      exact ⟨s2, l2.trans l1, fun j => le_trans (m1 j) (m2 j)⟩

theorem mindex_fold_hsh (q : FuzzyHash) (arr : List FuzzyHash)
    (tables : List (Option IndexTable)) (mask bs : Nat) (l : List Nat) :
    ∀ st : FuzzyHash × List Nat × Sibling,
      ((l.foldl (mindexStep q arr tables mask bs) st)).1 = rshIter bs st.1 l.length := by
  induction l with
  | nil => intro st; rfl
  | cons c rest ihl =>
      intro st
      rw [List.foldl_cons, ihl, mindexStep_fst]
      rfl

theorem mindex_fold_main (q : FuzzyHash) (arr : List FuzzyHash)
    (tables : List (Option IndexTable)) (mask bs : Nat)
    (czero : List Nat) (s0 : Sibling)
    (hsound0 : searchSound q arr (czero, s0))
    (blocks bstar iv : Nat) (hbstar : bstar < blocks) (hiv : iv < czero.length)
    (hmem : tblMem tables bstar (andMask (rshIter bs q bstar) mask % 2 ^ 16) iv) :
    ((List.range blocks).foldl (mindexStep q arr tables mask bs)
        (q, czero, s0)).2.2.distance ≤ distanceUint64s q (arr.getD iv []) := by
  have hsplit : List.range blocks
      = List.range (bstar + 1) ++ List.range' (bstar + 1) (blocks - (bstar + 1)) := by
    rw [List.range_eq_range', List.range_eq_range']
    calc List.range' 0 blocks
        = List.range' 0 (blocks - (bstar + 1) + (bstar + 1)) := by
          rw [show blocks - (bstar + 1) + (bstar + 1) = blocks from by omega]
      _ = List.range' 0 (bstar + 1) ++ List.range' (0 + 1 * (bstar + 1)) (blocks - (bstar + 1)) :=
          (List.range'_append _ _ _ _).symm
      _ = List.range' 0 (bstar + 1) ++ List.range' (bstar + 1) (blocks - (bstar + 1)) := by
          rw [show 0 + 1 * (bstar + 1) = bstar + 1 from by omega]
  obtain ⟨P, hP⟩ : ∃ P, (List.range bstar).foldl (mindexStep q arr tables mask bs)
      (q, czero, s0) = P := ⟨_, rfl⟩
  obtain ⟨spre, lpre, _⟩ := mindex_fold_sound q arr tables mask bs (List.range bstar)
    (q, czero, s0) hsound0
  rw [hP] at spre lpre
  have hP1 : P.1 = rshIter bs q bstar := by
    have := mindex_fold_hsh q arr tables mask bs (List.range bstar) (q, czero, s0)
    rw [hP, List.length_range] at this
    exact this
  have hmem' : tblMem tables bstar (andMask P.1 mask % 2 ^ 16) iv := by
    rw [hP1]
    exact hmem
  have hreg := mindexStep_registers q arr tables mask bs P bstar iv spre hmem'
    (by rw [lpre]; exact hiv)
  obtain ⟨lstep, sstep, _⟩ := mindexStep_spec q arr tables mask bs P bstar spre
  obtain ⟨ssuf, _, msuf⟩ := mindex_fold_sound q arr tables mask bs
    (List.range' (bstar + 1) (blocks - (bstar + 1)))
    (mindexStep q arr tables mask bs P bstar) sstep
  rw [hsplit, List.foldl_append, List.range_succ, List.foldl_append, hP]
  simp only [List.foldl_cons, List.foldl_nil]
  exact ssuf iv (le_trans hreg (msuf iv))

/-- If some block of the query shares its key with some stored fingerprint,
the multi-index search answers at most that fingerprint's true distance. -/
theorem mindex_search_le (h : H) (L : Nat) (hinv : InvM h L) (q : FuzzyHash)
    (iv : Nat) (hiv : iv < h.hashes.length)
    (bstar : Nat) (hbstar : bstar < h.blocks)
    (hkey : keyAt h.blockSize q bstar = keyAt h.blockSize (h.hashes.getD iv []) bstar) :
    (shortestDistanceMultiindex h q).distance
      ≤ distanceUint64s q (h.hashes.getD iv []) := by
  have hsound0 : searchSound q h.hashes
      (List.replicate h.hashes.length 0, { s := [], distance := h.config.HashSize }) := by
    intro j hj
    rw [getD_replicate_zero] at hj
    omega
  have hmem : tblMem h.multiIndexTables bstar (keyAt h.blockSize q bstar) iv := by
    rw [hkey]
    exact hinv.mem_tables iv hiv bstar hbstar
  have := mindex_fold_main q h.hashes h.multiIndexTables (goBlockMask h.blockSize)
    h.blockSize (List.replicate h.hashes.length 0)
    { s := [], distance := h.config.HashSize } hsound0 h.blocks bstar iv hbstar
    (by rw [List.length_replicate]; exact hiv) hmem
  exact this

/-- Claim C2 (amended): on a multi-index instance whose derived block size
is below 64 and whose contents were built by Add operations only, every
query q of the configured width holding only 64-bit limbs is answered with a
sibling distance of at most hamming(q, v) for every stored fingerprint v
within max_distance of q: by pigeonhole at least one of the max_distance + 1
blocks of q agrees with v's stored key, so v's index is among the candidates
whose true distance the search checks. -/
theorem c2_multiindex_radius (cfg : Config) (h0 : H) (vs : List FuzzyHash) (q v : FuzzyHash)
    (hnew : New cfg = .ok h0) (hmi : cfg.UseMultiindex = true)
    (hbs : cfg.HashSize / (cfg.MaxDistance + 1) < 64)
    (hq : q.length = cfg.HashSize / 64) (hqb : ∀ limb ∈ q, limb < 2 ^ 64)
    (hvs : ∀ w ∈ vs, w.length = cfg.HashSize / 64 ∧ ∀ limb ∈ w, limb < 2 ^ 64)
    (hv : Contains (addAll h0 vs) v = true)
    (hd : distanceUint64s q v ≤ cfg.MaxDistance) :
    (ShortestDistance (addAll h0 vs) q).distance ≤ distanceUint64s q v := by
  obtain ⟨hcfg, hh, hl, ht, hb, hbsz, hble⟩ := New_ok_fields cfg h0 hnew
  have hmi0 : h0.config.UseMultiindex = true := by
    rw [hcfg]
    exact hmi
  have hinv : InvM (addAll h0 vs) (cfg.HashSize / 64) :=
    invM_addAll h0 _ vs hmi0 hvs (invM_new cfg h0 _ hnew)
  have hvsome : (lookupGet? (addAll h0 vs).hashesLookup v).isSome = true := hv
  obtain ⟨iv, hiv⟩ := Option.isSome_iff_exists.mp hvsome
  obtain ⟨hivlt, hivget⟩ := hinv.base.lookup_sound v iv hiv
  have hvmem : v ∈ (addAll h0 vs).hashes := (mem_iff_getD _ _).mpr ⟨iv, hivlt, hivget⟩
  obtain ⟨hvL, hvb⟩ := hinv.wf v hvmem
  by_cases hcq : Contains (addAll h0 vs) q = true
  · rw [ShortestDistance, if_pos hcq]
    exact Nat.zero_le _
  · have hmiA : (addAll h0 vs).config.UseMultiindex = true := by
      rw [addAll_config]
      exact hmi0
    rw [ShortestDistance, if_neg hcq, Distance, if_pos hmiA]
    rcases Nat.eq_zero_or_pos (cfg.HashSize / 64) with hL0 | hLpos
    · exfalso
      apply hcq
      have hq0 : q = [] := List.length_eq_zero.mp (by rw [hq, hL0])
      have hv0 : v = [] := List.length_eq_zero.mp (by rw [hvL, hL0])
      rw [hq0, ← hv0]
      exact hv
    · have hqne : q ≠ [] := by
        intro hc
        rw [hc] at hq
        simp only [List.length_nil] at hq
        omega
      have hvne : v ≠ [] := by
        intro hc
        rw [hc] at hvL
        simp only [List.length_nil] at hvL
        omega
      have hblocksA : (addAll h0 vs).blocks = cfg.MaxDistance + 1 := by
        rw [addAll_blocks, hb]
      have hbs64 : (addAll h0 vs).blockSize < 64 := by
        rw [addAll_blockSize, hbsz]
        exact hbs
      have hqlen_v : q.length = v.length := by rw [hq, hvL]
      have hdist : distanceUint64s q v = popCount (toNat q ^^^ toNat v) :=
        distance_toNat q v hqlen_v hqb hvb
      have hdlt : popCount (toNat q ^^^ toNat v) < (addAll h0 vs).blocks := by
        rw [← hdist, hblocksA]
        omega
      obtain ⟨bstar, hbstar, hfield⟩ := pigeonhole_exists (addAll h0 vs).blockSize
        (addAll h0 vs).blocks (toNat q) (toNat v) hdlt
      have hkey : keyAt (addAll h0 vs).blockSize q bstar
          = keyAt (addAll h0 vs).blockSize ((addAll h0 vs).hashes.getD iv []) bstar := by
        rw [hivget, keyAt_eq _ hbs64 q hqne hqb bstar, keyAt_eq _ hbs64 v hvne hvb bstar,
          hfield]
      have hle := mindex_search_le (addAll h0 vs) _ hinv q iv hivlt bstar hbstar hkey
      rw [hivget] at hle
      exact hle

/-- A fresh multi-index instance with hash_size 64 and max_distance 35
(blocks = 36, block_size = 1), exactly as New constructs it. -/
def hW2 : H :=
  { config := { HashSize := 64, MaxDistance := 35, UseMultiindex := true },
    hashes := [], multiIndexTables := List.replicate 256 none, hashesLookup := [],
    blocks := 36, blockSize := 1, lastBlockSize := 29 }

theorem c2_multiindex_radius_witness :
    (ShortestDistance (addAll hW2 [[1]]) [3]).distance ≤ distanceUint64s [3] [1] :=
  c2_multiindex_radius { HashSize := 64, MaxDistance := 35, UseMultiindex := true }
    hW2 [[1]] [3] [1] (by rfl) rfl (by decide) (by decide) (by decide)
    (by decide) (by decide) (by decide)

end Hamming
